import Mathlib

/-!
Verification of `src/binary_merge.rs` from rklaehn/rust-nursery: the recursive
binary merge engine (`MergeOperation::merge0` / `merge`) and its
early-terminating variant (`ShortcutMergeOperation::merge0` / `merge`).

Modelling conventions: Rust slices are `List`, `usize` is `Nat`, the mutable
merge state `&mut M` is explicit state passing (`σ → σ`), and a panic
(out-of-bounds index or slice) is `none` of an `Option` result.  The
`MergeStateRead<A, B>` trait is a record of the two read accessors; the
`MergeOperation<A, B, M>` and `ShortcutMergeOperation<A, B, M>` traits are
records of the comparator and the three callbacks.
-/

/-- Rust type `EarlyOut = Option<()>` (binary_merge.rs line 73): `none` means
abort now, `some ()` means continue. -/
abbrev EarlyOut := Option Unit

/-- Rust trait `MergeStateRead<A, B>`: the read part of the merge state, giving
random access to the remainders of `a` and `b`.  `σ` models the state type `M`. -/
structure MergeStateRead (σ α β : Type) where
  a_slice : σ → List α
  b_slice : σ → List β

/-- Rust trait `MergeOperation<A, B, M>`: comparator plus the three callbacks.
Each callback mutates the state through `&mut M`, modelled as a state
transformer. -/
structure MergeOperation (σ α β : Type) where
  from_a : σ → Nat → σ
  from_b : σ → Nat → σ
  collision : σ → σ
  cmp : α → β → Ordering

/-- Rust trait `ShortcutMergeOperation<A, B, M>`: as `MergeOperation`, but each
callback additionally returns an `EarlyOut` signal. -/
structure ShortcutMergeOperation (σ α β : Type) where
  from_a : σ → Nat → σ × EarlyOut
  from_b : σ → Nat → σ × EarlyOut
  collision : σ → σ × EarlyOut
  cmp : α → β → Ordering

/-- Loop of Rust std `slice::binary_search_by` (external to this repository,
modelled from its documented contract and implementation): `left`/`right`
bracket the search window, with the invariant `right ≤ l.length` carried as a
hypothesis so every probe is in bounds.  Returns `.ok mid` as soon as the
comparison at the probe is `.eq`, otherwise `.error` of the insertion point. -/
def bsGo (f : β → Ordering) (l : List β) (left right : Nat) (h : right ≤ l.length) :
    Except Nat Nat :=
  if hlr : left < right then
    have hm : left + (right - left) / 2 < l.length := by omega
    match f (l.get ⟨left + (right - left) / 2, hm⟩) with
    | .lt => bsGo f l (left + (right - left) / 2 + 1) right h
    | .gt => bsGo f l left (left + (right - left) / 2) (by omega)
    | .eq => .ok (left + (right - left) / 2)
  else
    .error left
termination_by right - left
decreasing_by
  all_goals omega

/-- Rust std `slice::binary_search_by`: `.ok i` when an element comparing `.eq`
is found at index `i`, `.error i` with the insertion point `i` otherwise. -/
def binary_search_by (f : β → Ordering) (l : List β) : Except Nat Nat :=
  bsGo f l 0 l.length (Nat.le_refl _)

/-- Rust `MergeOperation::merge0` (binary_merge.rs lines 28-63): merge `an`
elements from a and `bn` elements from b into the result.  The two index
accesses that can panic in Rust (`m.a_slice()[am]` and `m.b_slice()[..bn]`)
yield `none` when out of bounds. -/
def MergeOperation.merge0 (op : MergeOperation σ α β) (R : MergeStateRead σ α β)
    (m : σ) (an bn : Nat) : Option σ :=
  if h0 : an = 0 then
    if bn > 0 then some (op.from_b m bn) else some m
  else if h1 : bn = 0 then
    if an > 0 then some (op.from_a m an) else some m
  else
    match (R.a_slice m)[an / 2]? with
    | none => none
    | some a =>
      if bn ≤ (R.b_slice m).length then
        match binary_search_by (fun b => (op.cmp a b).swap) ((R.b_slice m).take bn) with
        | .ok bm =>
          match op.merge0 R m (an / 2) bm with
          | none => none
          | some m1 => op.merge0 R (op.collision m1) (an - an / 2 - 1) (bn - bm - 1)
        | .error bi =>
          match op.merge0 R m (an / 2) bi with
          | none => none
          | some m1 => op.merge0 R (op.from_a m1 1) (an - an / 2 - 1) (bn - bi)
      else none
termination_by an
decreasing_by
  all_goals omega

/-- Rust `MergeOperation::merge` (binary_merge.rs lines 64-68): run `merge0` on
the full current lengths of both views. -/
def MergeOperation.merge (op : MergeOperation σ α β) (R : MergeStateRead σ α β)
    (m : σ) : Option σ :=
  op.merge0 R m (R.a_slice m).length (R.b_slice m).length

/-- Rust `ShortcutMergeOperation::merge0` (binary_merge.rs lines 84-120).  The
result `some (m', s)` is the final state together with the `EarlyOut` signal the
call returns (`?` propagation written out as matches); outer `none` is a panic. -/
def ShortcutMergeOperation.merge0 (op : ShortcutMergeOperation σ α β)
    (R : MergeStateRead σ α β) (m : σ) (an bn : Nat) : Option (σ × EarlyOut) :=
  if h0 : an = 0 then
    if bn > 0 then some (op.from_b m bn) else some (m, some ())
  else if h1 : bn = 0 then
    if an > 0 then some (op.from_a m an) else some (m, some ())
  else
    match (R.a_slice m)[an / 2]? with
    | none => none
    | some a =>
      if bn ≤ (R.b_slice m).length then
        match binary_search_by (fun b => (op.cmp a b).swap) ((R.b_slice m).take bn) with
        | .ok bm =>
          match op.merge0 R m (an / 2) bm with
          | none => none
          | some (m1, none) => some (m1, none)
          | some (m1, some _) =>
            match op.collision m1 with
            | (m2, none) => some (m2, none)
            | (m2, some _) => op.merge0 R m2 (an - an / 2 - 1) (bn - bm - 1)
        | .error bi =>
          match op.merge0 R m (an / 2) bi with
          | none => none
          | some (m1, none) => some (m1, none)
          | some (m1, some _) =>
            match op.from_a m1 1 with
            | (m2, none) => some (m2, none)
            | (m2, some _) => op.merge0 R m2 (an - an / 2 - 1) (bn - bi)
      else none
termination_by an
decreasing_by
  all_goals omega

/-- Rust `ShortcutMergeOperation::merge` (binary_merge.rs lines 121-125): run
`merge0` on the full lengths and discard the final `EarlyOut` signal. -/
def ShortcutMergeOperation.merge (op : ShortcutMergeOperation σ α β)
    (R : MergeStateRead σ α β) (m : σ) : Option σ :=
  (op.merge0 R m (R.a_slice m).length (R.b_slice m).length).map Prod.fst

/-- Callback invocation record for instrumented merge operations.  `κ` is the
type of the key logged at a collision (`Unit` when no key is logged). -/
inductive MEvent (κ : Type) where
  | fromA (n : Nat)
  | fromB (n : Nat)
  | coll (k : κ)
deriving DecidableEq

/-- Number of elements of the a view consumed by a list of callback events:
each `from_a n` consumes `n`, each collision consumes 1. -/
def sumA : List (MEvent κ) → Nat
  | [] => 0
  | .fromA n :: t => n + sumA t
  | .fromB _ :: t => sumA t
  | .coll _ :: t => 1 + sumA t

/-- Number of elements of the b view consumed by a list of callback events:
each `from_b n` consumes `n`, each collision consumes 1. -/
def sumB : List (MEvent κ) → Nat
  | [] => 0
  | .fromA _ :: t => sumB t
  | .fromB n :: t => n + sumB t
  | .coll _ :: t => 1 + sumB t

/-- Keys logged by the collision events of an event list, in order. -/
def collKeys (l : List (MEvent κ)) : List κ :=
  l.filterMap fun e =>
    match e with
    | .coll k => some k
    | _ => none

/-- Prefix of an event list up to and including its first collision event
(the whole list when it has no collision). -/
def upToFirstColl : List (MEvent κ) → List (MEvent κ)
  | [] => []
  | .coll k :: _ => [.coll k]
  | e :: t => e :: upToFirstColl t

/-- Ghost instrumentation of an arbitrary merge operation: the same state
transformations on the first component, with every callback invocation logged
in the second component. -/
def instrument (op : MergeOperation σ α β) : MergeOperation (σ × List (MEvent Unit)) α β where
  from_a p n := (op.from_a p.1 n, p.2 ++ [.fromA n])
  from_b p n := (op.from_b p.1 n, p.2 ++ [.fromB n])
  collision p := (op.collision p.1, p.2 ++ [.coll ()])
  cmp := op.cmp

/-- State reader for the instrumented operation: reads through to the first
component. -/
def instrumentRead (R : MergeStateRead σ α β) : MergeStateRead (σ × List (MEvent Unit)) α β where
  a_slice p := R.a_slice p.1
  b_slice p := R.b_slice p.1

/-- Ghost record of one shortcut callback invocation: which callback was
invoked, at which state, and with which count argument. -/
inductive SEvent (σ : Type) where
  | fromA (s : σ) (n : Nat)
  | fromB (s : σ) (n : Nat)
  | coll (s : σ)
deriving DecidableEq

/-- The recorded callback invocation returned the abort signal. -/
def SEventAborts (op : ShortcutMergeOperation σ α β) : SEvent σ → Prop
  | .fromA s n => (op.from_a s n).2 = none
  | .fromB s n => (op.from_b s n).2 = none
  | .coll s => (op.collision s).2 = none

/-- Ghost instrumentation of an arbitrary shortcut operation: the same state
transformation and the same signal on the first component, with every callback
invocation logged together with the state it was invoked at. -/
def sinstrument (op : ShortcutMergeOperation σ α β) :
    ShortcutMergeOperation (σ × List (SEvent σ)) α β where
  from_a p n := (((op.from_a p.1 n).1, p.2 ++ [.fromA p.1 n]), (op.from_a p.1 n).2)
  from_b p n := (((op.from_b p.1 n).1, p.2 ++ [.fromB p.1 n]), (op.from_b p.1 n).2)
  collision p := (((op.collision p.1).1, p.2 ++ [.coll p.1]), (op.collision p.1).2)
  cmp := op.cmp

/-- State reader for the instrumented shortcut operation. -/
def sinstrumentRead (R : MergeStateRead σ α β) :
    MergeStateRead (σ × List (SEvent σ)) α β where
  a_slice p := R.a_slice p.1
  b_slice p := R.b_slice p.1

/-- Concrete merge state over `Nat` elements: the two remaining views, an
output accumulator, and a ghost log of the callback invocations. -/
structure UState where
  a : List Nat
  b : List Nat
  out : List Nat
  evs : List (MEvent Nat)
deriving DecidableEq

/-- Reader for `UState`: the remaining views are the `a` and `b` fields. -/
def uRead : MergeStateRead UState Nat Nat where
  a_slice m := m.a
  b_slice m := m.b

/-- Union policy over `UState`: `from_a`/`from_b` record the indicated elements
into `out` and consume them from the view, `collision` records the shared key
once and consumes it from both views.  Every callback also logs itself. -/
def unionOp : MergeOperation UState Nat Nat where
  from_a m n := ⟨m.a.drop n, m.b, m.out ++ m.a.take n, m.evs ++ [.fromA n]⟩
  from_b m n := ⟨m.a, m.b.drop n, m.out ++ m.b.take n, m.evs ++ [.fromB n]⟩
  collision m := ⟨m.a.drop 1, m.b.drop 1, m.out ++ m.a.take 1,
    m.evs ++ (m.a.take 1).map MEvent.coll⟩
  cmp a b := compare a b

/-- Short-circuit twin of `unionOp`: identical state transformations, but the
collision callback returns the abort signal. -/
def sUnionOp : ShortcutMergeOperation UState Nat Nat where
  from_a m n := (unionOp.from_a m n, some ())
  from_b m n := (unionOp.from_b m n, some ())
  collision m := (unionOp.collision m, none)
  cmp a b := compare a b

/-- Short-circuit twin of `unionOp` whose callbacks all return the continue
signal. -/
def cUnionOp : ShortcutMergeOperation UState Nat Nat where
  from_a m n := (unionOp.from_a m n, some ())
  from_b m n := (unionOp.from_b m n, some ())
  collision m := (unionOp.collision m, some ())
  cmp a b := compare a b

/-- Merge operation whose callbacks leave the state untouched (they record
nothing and consume nothing). -/
def idOp (c : α → β → Ordering) : MergeOperation σ α β where
  from_a m _ := m
  from_b m _ := m
  collision m := m
  cmp := c

/-- Reader for a bare pair of views. -/
def pairRead : MergeStateRead (List Nat × List Nat) Nat Nat where
  a_slice m := m.1
  b_slice m := m.2

/-- Fuel-indexed variant of `MergeOperation.merge0`, structurally recursive on
the fuel (one unit per recursion level): `none` on fuel exhaustion, otherwise
the same body.  Used to express that the recursion depth of `merge0` is bounded
because every recursive call strictly decreases `an`. -/
def merge0F (op : MergeOperation σ α β) (R : MergeStateRead σ α β) :
    Nat → σ → Nat → Nat → Option σ
  | 0, _, _, _ => none
  | fuel + 1, m, an, bn =>
    if an = 0 then
      if bn > 0 then some (op.from_b m bn) else some m
    else if bn = 0 then
      if an > 0 then some (op.from_a m an) else some m
    else
      match (R.a_slice m)[an / 2]? with
      | none => none
      | some a =>
        if bn ≤ (R.b_slice m).length then
          match binary_search_by (fun b => (op.cmp a b).swap) ((R.b_slice m).take bn) with
          | .ok bm =>
            match merge0F op R fuel m (an / 2) bm with
            | none => none
            | some m1 => merge0F op R fuel (op.collision m1) (an - an / 2 - 1) (bn - bm - 1)
          | .error bi =>
            match merge0F op R fuel m (an / 2) bi with
            | none => none
            | some m1 => merge0F op R fuel (op.from_a m1 1) (an - an / 2 - 1) (bn - bi)
        else none

/-- Fuel-indexed variant of `ShortcutMergeOperation.merge0`, structurally
recursive on the fuel. -/
def smerge0F (op : ShortcutMergeOperation σ α β) (R : MergeStateRead σ α β) :
    Nat → σ → Nat → Nat → Option (σ × EarlyOut)
  | 0, _, _, _ => none
  | fuel + 1, m, an, bn =>
    if an = 0 then
      if bn > 0 then some (op.from_b m bn) else some (m, some ())
    else if bn = 0 then
      if an > 0 then some (op.from_a m an) else some (m, some ())
    else
      match (R.a_slice m)[an / 2]? with
      | none => none
      | some a =>
        if bn ≤ (R.b_slice m).length then
          match binary_search_by (fun b => (op.cmp a b).swap) ((R.b_slice m).take bn) with
          | .ok bm =>
            match smerge0F op R fuel m (an / 2) bm with
            | none => none
            | some (m1, none) => some (m1, none)
            | some (m1, some _) =>
              match op.collision m1 with
              | (m2, none) => some (m2, none)
              | (m2, some _) => smerge0F op R fuel m2 (an - an / 2 - 1) (bn - bm - 1)
          | .error bi =>
            match smerge0F op R fuel m (an / 2) bi with
            | none => none
            | some (m1, none) => some (m1, none)
            | some (m1, some _) =>
              match op.from_a m1 1 with
              | (m2, none) => some (m2, none)
              | (m2, some _) => smerge0F op R fuel m2 (an - an / 2 - 1) (bn - bi)
        else none

/-- Contract every real merge state implementation obeys: a callback consumes
from the views exactly the elements the engine reports.  `from_a n` drops `n`
from the front of the a view and leaves b alone, `from_b n` symmetrically, and
`collision` drops one element from the front of each view. -/
def Consumes (op : MergeOperation σ α β) (R : MergeStateRead σ α β) : Prop :=
  (∀ m n, R.a_slice (op.from_a m n) = (R.a_slice m).drop n
      ∧ R.b_slice (op.from_a m n) = R.b_slice m)
  ∧ (∀ m n, R.a_slice (op.from_b m n) = R.a_slice m
      ∧ R.b_slice (op.from_b m n) = (R.b_slice m).drop n)
  ∧ (∀ m, R.a_slice (op.collision m) = (R.a_slice m).drop 1
      ∧ R.b_slice (op.collision m) = (R.b_slice m).drop 1)

/-! Unfolding equations of `MergeOperation.merge0`, one per control path of the
Rust source: the two empty-segment arms, the recursive arms for a found /
not-found binary search, and the two panic points. -/

/-- Both segments empty: no callback, the state is returned unchanged. -/
theorem merge0_nil_nil (op : MergeOperation σ α β) (R : MergeStateRead σ α β) (m : σ) :
    op.merge0 R m 0 0 = some m := by
  rw [MergeOperation.merge0]
  simp

/-- Empty a segment, nonempty b segment: exactly one `from_b bn` call. -/
theorem merge0_nil_pos (op : MergeOperation σ α β) (R : MergeStateRead σ α β) (m : σ)
    (h : 0 < bn) : op.merge0 R m 0 bn = some (op.from_b m bn) := by
  rw [MergeOperation.merge0]
  simp [h]

/-- Nonempty a segment, empty b segment: exactly one `from_a an` call. -/
theorem merge0_pos_nil (op : MergeOperation σ α β) (R : MergeStateRead σ α β) (m : σ)
    (h : 0 < an) : op.merge0 R m an 0 = some (op.from_a m an) := by
  rw [MergeOperation.merge0]
  simp [h, Nat.pos_iff_ne_zero.mp h]

/-- Recursive arm, pivot found in b at `bm`: prefix recursion, then `collision`,
then suffix recursion. -/
theorem merge0_ok (op : MergeOperation σ α β) (R : MergeStateRead σ α β) (m : σ)
    (h0 : an ≠ 0) (h1 : bn ≠ 0) (ha : (R.a_slice m)[an / 2]? = some a)
    (hb : bn ≤ (R.b_slice m).length)
    (hs : binary_search_by (fun b => (op.cmp a b).swap) ((R.b_slice m).take bn) = .ok bm) :
    op.merge0 R m an bn =
      (op.merge0 R m (an / 2) bm).bind
        (fun m1 => op.merge0 R (op.collision m1) (an - an / 2 - 1) (bn - bm - 1)) := by
  conv_lhs => rw [MergeOperation.merge0]
  simp [h0, h1, ha, hb, hs]
  rcases op.merge0 R m (an / 2) bm with _ | m1 <;> rfl

/-- Recursive arm, pivot not found, insertion point `bi`: prefix recursion, then
`from_a 1` for the pivot, then suffix recursion. -/
theorem merge0_err (op : MergeOperation σ α β) (R : MergeStateRead σ α β) (m : σ)
    (h0 : an ≠ 0) (h1 : bn ≠ 0) (ha : (R.a_slice m)[an / 2]? = some a)
    (hb : bn ≤ (R.b_slice m).length)
    (hs : binary_search_by (fun b => (op.cmp a b).swap) ((R.b_slice m).take bn) = .error bi) :
    op.merge0 R m an bn =
      (op.merge0 R m (an / 2) bi).bind
        (fun m1 => op.merge0 R (op.from_a m1 1) (an - an / 2 - 1) (bn - bi)) := by
  conv_lhs => rw [MergeOperation.merge0]
  simp [h0, h1, ha, hb, hs]
  rcases op.merge0 R m (an / 2) bi with _ | m1 <;> rfl

/-- Panic point 1: the pivot index `an / 2` is out of bounds of the a view. -/
theorem merge0_panic_a (op : MergeOperation σ α β) (R : MergeStateRead σ α β) (m : σ)
    (h0 : an ≠ 0) (h1 : bn ≠ 0) (ha : (R.a_slice m)[an / 2]? = none) :
    op.merge0 R m an bn = none := by
  rw [MergeOperation.merge0]
  simp [h0, h1, ha]

/-- Panic point 2: the sub-slice bound `bn` exceeds the b view's length. -/
theorem merge0_panic_b (op : MergeOperation σ α β) (R : MergeStateRead σ α β) (m : σ)
    (h0 : an ≠ 0) (h1 : bn ≠ 0) (ha : (R.a_slice m)[an / 2]? = some a)
    (hb : ¬ bn ≤ (R.b_slice m).length) :
    op.merge0 R m an bn = none := by
  rw [MergeOperation.merge0]
  simp [h0, h1, ha, hb]

/-! Unfolding equations of `ShortcutMergeOperation.merge0`, including one per
abort point of the `?` chain. -/

/-- Both segments empty: no callback, continue signal. -/
theorem smerge0_nil_nil (op : ShortcutMergeOperation σ α β) (R : MergeStateRead σ α β) (m : σ) :
    op.merge0 R m 0 0 = some (m, some ()) := by
  rw [ShortcutMergeOperation.merge0]
  simp

/-- Empty a segment, nonempty b segment: exactly one `from_b bn` call, whose
state and signal are the result (an abort signal propagates unchanged). -/
theorem smerge0_nil_pos (op : ShortcutMergeOperation σ α β) (R : MergeStateRead σ α β) (m : σ)
    (h : 0 < bn) : op.merge0 R m 0 bn = some (op.from_b m bn) := by
  rw [ShortcutMergeOperation.merge0]
  simp [h]

/-- Nonempty a segment, empty b segment: exactly one `from_a an` call. -/
theorem smerge0_pos_nil (op : ShortcutMergeOperation σ α β) (R : MergeStateRead σ α β) (m : σ)
    (h : 0 < an) : op.merge0 R m an 0 = some (op.from_a m an) := by
  rw [ShortcutMergeOperation.merge0]
  simp [h, Nat.pos_iff_ne_zero.mp h]

/-- Found arm, abort out of the prefix recursion: the enclosing call returns the
aborting sub-call's state and abort signal; nothing after it runs. -/
theorem smerge0_ok_abort1 (op : ShortcutMergeOperation σ α β) (R : MergeStateRead σ α β) (m : σ)
    (h0 : an ≠ 0) (h1 : bn ≠ 0) (ha : (R.a_slice m)[an / 2]? = some a)
    (hb : bn ≤ (R.b_slice m).length)
    (hs : binary_search_by (fun b => (op.cmp a b).swap) ((R.b_slice m).take bn) = .ok bm)
    (hr : op.merge0 R m (an / 2) bm = some (m1, none)) :
    op.merge0 R m an bn = some (m1, none) := by
  conv_lhs => rw [ShortcutMergeOperation.merge0]
  simp [h0, h1, ha, hb, hs, hr]

/-- Found arm, abort out of `collision`: the enclosing call returns the state
the collision callback produced, with the abort signal; the suffix recursion
never runs. -/
theorem smerge0_ok_abort2 (op : ShortcutMergeOperation σ α β) (R : MergeStateRead σ α β) (m : σ)
    (h0 : an ≠ 0) (h1 : bn ≠ 0) (ha : (R.a_slice m)[an / 2]? = some a)
    (hb : bn ≤ (R.b_slice m).length)
    (hs : binary_search_by (fun b => (op.cmp a b).swap) ((R.b_slice m).take bn) = .ok bm)
    (hr : op.merge0 R m (an / 2) bm = some (m1, some u))
    (hc : op.collision m1 = (m2, none)) :
    op.merge0 R m an bn = some (m2, none) := by
  conv_lhs => rw [ShortcutMergeOperation.merge0]
  simp [h0, h1, ha, hb, hs, hr, hc]

/-- Found arm, no abort before the suffix recursion: the result is the suffix
recursion's result. -/
theorem smerge0_ok_cont (op : ShortcutMergeOperation σ α β) (R : MergeStateRead σ α β) (m : σ)
    (h0 : an ≠ 0) (h1 : bn ≠ 0) (ha : (R.a_slice m)[an / 2]? = some a)
    (hb : bn ≤ (R.b_slice m).length)
    (hs : binary_search_by (fun b => (op.cmp a b).swap) ((R.b_slice m).take bn) = .ok bm)
    (hr : op.merge0 R m (an / 2) bm = some (m1, some u))
    (hc : op.collision m1 = (m2, some u')) :
    op.merge0 R m an bn = op.merge0 R m2 (an - an / 2 - 1) (bn - bm - 1) := by
  conv_lhs => rw [ShortcutMergeOperation.merge0]
  simp [h0, h1, ha, hb, hs, hr, hc]

/-- Found arm, panic inside the prefix recursion propagates. -/
theorem smerge0_ok_panic (op : ShortcutMergeOperation σ α β) (R : MergeStateRead σ α β) (m : σ)
    (h0 : an ≠ 0) (h1 : bn ≠ 0) (ha : (R.a_slice m)[an / 2]? = some a)
    (hb : bn ≤ (R.b_slice m).length)
    (hs : binary_search_by (fun b => (op.cmp a b).swap) ((R.b_slice m).take bn) = .ok bm)
    (hr : op.merge0 R m (an / 2) bm = none) :
    op.merge0 R m an bn = none := by
  conv_lhs => rw [ShortcutMergeOperation.merge0]
  simp [h0, h1, ha, hb, hs, hr]

/-- Not-found arm, abort out of the prefix recursion: propagated unchanged. -/
theorem smerge0_err_abort1 (op : ShortcutMergeOperation σ α β) (R : MergeStateRead σ α β) (m : σ)
    (h0 : an ≠ 0) (h1 : bn ≠ 0) (ha : (R.a_slice m)[an / 2]? = some a)
    (hb : bn ≤ (R.b_slice m).length)
    (hs : binary_search_by (fun b => (op.cmp a b).swap) ((R.b_slice m).take bn) = .error bi)
    (hr : op.merge0 R m (an / 2) bi = some (m1, none)) :
    op.merge0 R m an bn = some (m1, none) := by
  conv_lhs => rw [ShortcutMergeOperation.merge0]
  simp [h0, h1, ha, hb, hs, hr]

/-- Not-found arm, abort out of `from_a 1`: the suffix recursion never runs. -/
theorem smerge0_err_abort2 (op : ShortcutMergeOperation σ α β) (R : MergeStateRead σ α β) (m : σ)
    (h0 : an ≠ 0) (h1 : bn ≠ 0) (ha : (R.a_slice m)[an / 2]? = some a)
    (hb : bn ≤ (R.b_slice m).length)
    (hs : binary_search_by (fun b => (op.cmp a b).swap) ((R.b_slice m).take bn) = .error bi)
    (hr : op.merge0 R m (an / 2) bi = some (m1, some u))
    (hc : op.from_a m1 1 = (m2, none)) :
    op.merge0 R m an bn = some (m2, none) := by
  conv_lhs => rw [ShortcutMergeOperation.merge0]
  simp [h0, h1, ha, hb, hs, hr, hc]

/-- Not-found arm, no abort before the suffix recursion. -/
theorem smerge0_err_cont (op : ShortcutMergeOperation σ α β) (R : MergeStateRead σ α β) (m : σ)
    (h0 : an ≠ 0) (h1 : bn ≠ 0) (ha : (R.a_slice m)[an / 2]? = some a)
    (hb : bn ≤ (R.b_slice m).length)
    (hs : binary_search_by (fun b => (op.cmp a b).swap) ((R.b_slice m).take bn) = .error bi)
    (hr : op.merge0 R m (an / 2) bi = some (m1, some u))
    (hc : op.from_a m1 1 = (m2, some u')) :
    op.merge0 R m an bn = op.merge0 R m2 (an - an / 2 - 1) (bn - bi) := by
  conv_lhs => rw [ShortcutMergeOperation.merge0]
  simp [h0, h1, ha, hb, hs, hr, hc]

/-- Not-found arm, panic inside the prefix recursion propagates. -/
theorem smerge0_err_panic (op : ShortcutMergeOperation σ α β) (R : MergeStateRead σ α β) (m : σ)
    (h0 : an ≠ 0) (h1 : bn ≠ 0) (ha : (R.a_slice m)[an / 2]? = some a)
    (hb : bn ≤ (R.b_slice m).length)
    (hs : binary_search_by (fun b => (op.cmp a b).swap) ((R.b_slice m).take bn) = .error bi)
    (hr : op.merge0 R m (an / 2) bi = none) :
    op.merge0 R m an bn = none := by
  conv_lhs => rw [ShortcutMergeOperation.merge0]
  simp [h0, h1, ha, hb, hs, hr]

/-- Panic point 1 of the shortcut variant. -/
theorem smerge0_panic_a (op : ShortcutMergeOperation σ α β) (R : MergeStateRead σ α β) (m : σ)
    (h0 : an ≠ 0) (h1 : bn ≠ 0) (ha : (R.a_slice m)[an / 2]? = none) :
    op.merge0 R m an bn = none := by
  rw [ShortcutMergeOperation.merge0]
  simp [h0, h1, ha]

/-- Panic point 2 of the shortcut variant. -/
theorem smerge0_panic_b (op : ShortcutMergeOperation σ α β) (R : MergeStateRead σ α β) (m : σ)
    (h0 : an ≠ 0) (h1 : bn ≠ 0) (ha : (R.a_slice m)[an / 2]? = some a)
    (hb : ¬ bn ≤ (R.b_slice m).length) :
    op.merge0 R m an bn = none := by
  rw [ShortcutMergeOperation.merge0]
  simp [h0, h1, ha, hb]

/-- Fuel-indexed and well-founded versions of the full engine agree whenever the
fuel exceeds `an`: the recursion depth of `merge0` is bounded by `an` because
every recursive call passes a strictly smaller first length argument. -/
theorem merge0F_eq (op : MergeOperation σ α β) (R : MergeStateRead σ α β) :
    ∀ fuel an m bn, an < fuel → merge0F op R fuel m an bn = op.merge0 R m an bn := by
  intro fuel
  induction fuel with
  | zero => omega
  | succ f IH =>
    intro an m bn hfuel
    by_cases h0 : an = 0
    · subst h0
      by_cases hbn : 0 < bn
      · rw [merge0_nil_pos op R m hbn]
        simp [merge0F, hbn]
      · have : bn = 0 := by omega
        subst this
        rw [merge0_nil_nil]
        simp [merge0F]
    · by_cases h1 : bn = 0
      · subst h1
        have han : an > 0 := by omega
        rw [merge0_pos_nil op R m han]
        simp [merge0F, h0, han]
      · rcases hla : (R.a_slice m)[an / 2]? with _ | a
        · rw [merge0_panic_a op R m h0 h1 hla]
          simp [merge0F, h0, h1, hla]
        · by_cases hb : bn ≤ (R.b_slice m).length
          · rcases hsr : binary_search_by (fun b => (op.cmp a b).swap) ((R.b_slice m).take bn)
              with bi | bm
            · rw [merge0_err op R m h0 h1 hla hb hsr]
              simp only [merge0F, h0, h1, hla, hb, hsr, if_false, if_true, ite_true, ite_false]
              rw [IH (an / 2) m bi (by omega)]
              rcases hm1 : op.merge0 R m (an / 2) bi with _ | m1
              · simp
              · simp only [Option.bind_some]
                exact IH _ _ _ (by omega)
            · rw [merge0_ok op R m h0 h1 hla hb hsr]
              simp only [merge0F, h0, h1, hla, hb, hsr, if_false, if_true, ite_true, ite_false]
              rw [IH (an / 2) m bm (by omega)]
              rcases hm1 : op.merge0 R m (an / 2) bm with _ | m1
              · simp
              · simp only [Option.bind_some]
                exact IH _ _ _ (by omega)
          · rw [merge0_panic_b op R m h0 h1 hla hb]
            simp [merge0F, h0, h1, hla, hb]

/-- Fuel-indexed and well-founded versions of the shortcut engine agree whenever
the fuel exceeds `an`, for the same reason as in the full engine. -/
theorem smerge0F_eq (op : ShortcutMergeOperation σ α β) (R : MergeStateRead σ α β) :
    ∀ fuel an m bn, an < fuel → smerge0F op R fuel m an bn = op.merge0 R m an bn := by
  intro fuel
  induction fuel with
  | zero => omega
  | succ f IH =>
    intro an m bn hfuel
    by_cases h0 : an = 0
    · subst h0
      by_cases hbn : 0 < bn
      · rw [smerge0_nil_pos op R m hbn]
        simp [smerge0F, hbn]
      · have : bn = 0 := by omega
        subst this
        rw [smerge0_nil_nil]
        simp [smerge0F]
    · by_cases h1 : bn = 0
      · subst h1
        have han : an > 0 := by omega
        rw [smerge0_pos_nil op R m han]
        simp [smerge0F, h0, han]
      · rcases hla : (R.a_slice m)[an / 2]? with _ | a
        · rw [smerge0_panic_a op R m h0 h1 hla]
          simp [smerge0F, h0, h1, hla]
        · by_cases hb : bn ≤ (R.b_slice m).length
          · rcases hsr : binary_search_by (fun b => (op.cmp a b).swap) ((R.b_slice m).take bn)
              with bi | bm
            · simp only [smerge0F, h0, h1, hla, hb, hsr, if_false, if_true, ite_true, ite_false]
              rw [IH (an / 2) m bi (by omega)]
              rcases hm1 : op.merge0 R m (an / 2) bi with _ | ⟨m1, s1⟩
              · rw [smerge0_err_panic op R m h0 h1 hla hb hsr hm1]
              · rcases s1 with _ | u
                · rw [smerge0_err_abort1 op R m h0 h1 hla hb hsr hm1]
                · rcases hc : op.from_a m1 1 with ⟨m2, s2⟩
                  rcases s2 with _ | u'
                  · rw [smerge0_err_abort2 op R m h0 h1 hla hb hsr hm1 hc]
                    simp [hc]
                  · rw [smerge0_err_cont op R m h0 h1 hla hb hsr hm1 hc]
                    simp only [hc]
                    exact IH _ _ _ (by omega)
            · simp only [smerge0F, h0, h1, hla, hb, hsr, if_false, if_true, ite_true, ite_false]
              rw [IH (an / 2) m bm (by omega)]
              rcases hm1 : op.merge0 R m (an / 2) bm with _ | ⟨m1, s1⟩
              · rw [smerge0_ok_panic op R m h0 h1 hla hb hsr hm1]
              · rcases s1 with _ | u
                · rw [smerge0_ok_abort1 op R m h0 h1 hla hb hsr hm1]
                · rcases hc : op.collision m1 with ⟨m2, s2⟩
                  rcases s2 with _ | u'
                  · rw [smerge0_ok_abort2 op R m h0 h1 hla hb hsr hm1 hc]
                    simp [hc]
                  · rw [smerge0_ok_cont op R m h0 h1 hla hb hsr hm1 hc]
                    simp only [hc]
                    exact IH _ _ _ (by omega)
          · rw [smerge0_panic_b op R m h0 h1 hla hb]
            simp [smerge0F, h0, h1, hla, hb]

/-! Step equations and bounds for the binary search loop. -/

/-- Comparison at the probe is `.lt`: the loop moves `left` past the probe. -/
theorem bsGo_step_lt (f : β → Ordering) (l : List β) (left right : Nat) (h : right ≤ l.length)
    (hlr : left < right) (hm : left + (right - left) / 2 < l.length)
    (hf : f (l.get ⟨left + (right - left) / 2, hm⟩) = .lt) :
    bsGo f l left right h = bsGo f l (left + (right - left) / 2 + 1) right h := by
  rw [List.get_eq_getElem] at hf
  rw [bsGo]
  simp [hlr, hf]

/-- Comparison at the probe is `.gt`: the loop moves `right` down to the probe. -/
theorem bsGo_step_gt (f : β → Ordering) (l : List β) (left right : Nat) (h : right ≤ l.length)
    (hlr : left < right) (hm : left + (right - left) / 2 < l.length)
    (hf : f (l.get ⟨left + (right - left) / 2, hm⟩) = .gt)
    (h' : left + (right - left) / 2 ≤ l.length) :
    bsGo f l left right h = bsGo f l left (left + (right - left) / 2) h' := by
  rw [List.get_eq_getElem] at hf
  rw [bsGo]
  simp [hlr, hf]

/-- Comparison at the probe is `.eq`: the loop returns the probe index. -/
theorem bsGo_step_eq (f : β → Ordering) (l : List β) (left right : Nat) (h : right ≤ l.length)
    (hlr : left < right) (hm : left + (right - left) / 2 < l.length)
    (hf : f (l.get ⟨left + (right - left) / 2, hm⟩) = .eq) :
    bsGo f l left right h = .ok (left + (right - left) / 2) := by
  rw [List.get_eq_getElem] at hf
  rw [bsGo]
  simp [hlr, hf]

/-- Empty window: the loop returns `left` as the insertion point. -/
theorem bsGo_stop (f : β → Ordering) (l : List β) (left right : Nat) (h : right ≤ l.length)
    (hlr : ¬ left < right) :
    bsGo f l left right h = .error left := by
  rw [bsGo]
  simp [hlr]

/-- A found index lies inside the search window. -/
theorem bsGo_ok_bounds (f : β → Ordering) (l : List β) :
    ∀ left right (h : right ≤ l.length), ∀ i,
      bsGo f l left right h = .ok i → left ≤ i ∧ i < right := by
  intro left right h
  induction left, right, h using bsGo.induct f l with
  | case1 left right h hlr hm hf IH =>
    intro i hi
    rw [bsGo_step_lt f l left right h hlr hm hf] at hi
    have := IH i hi
    omega
  | case2 left right h hlr hm hf IH =>
    intro i hi
    rw [bsGo_step_gt f l left right h hlr hm hf (by omega)] at hi
    have := IH i hi
    omega
  | case3 left right h hlr hm hf =>
    intro i hi
    rw [bsGo_step_eq f l left right h hlr hm hf] at hi
    simp at hi
    omega
  | case4 left right h hlr =>
    intro i hi
    rw [bsGo_stop f l left right h hlr] at hi
    simp at hi

/-- An insertion point lies inside the (nonempty-invariant) search window. -/
theorem bsGo_err_bounds (f : β → Ordering) (l : List β) :
    ∀ left right (h : right ≤ l.length), left ≤ right → ∀ i,
      bsGo f l left right h = .error i → left ≤ i ∧ i ≤ right := by
  intro left right h
  induction left, right, h using bsGo.induct f l with
  | case1 left right h hlr hm hf IH =>
    intro _ i hi
    rw [bsGo_step_lt f l left right h hlr hm hf] at hi
    have := IH (by omega) i hi
    omega
  | case2 left right h hlr hm hf IH =>
    intro _ i hi
    rw [bsGo_step_gt f l left right h hlr hm hf (by omega)] at hi
    have := IH (by omega) i hi
    omega
  | case3 left right h hlr hm hf =>
    intro _ i hi
    rw [bsGo_step_eq f l left right h hlr hm hf] at hi
    simp at hi
  | case4 left right h hlr =>
    intro hle i hi
    rw [bsGo_stop f l left right h hlr] at hi
    simp at hi
    omega

/-- A found index of `binary_search_by` is a valid index of the list. -/
theorem binary_search_by_ok_lt (f : β → Ordering) (l : List β) (i : Nat)
    (h : binary_search_by f l = .ok i) : i < l.length :=
  (bsGo_ok_bounds f l 0 l.length (Nat.le_refl _) i h).2

/-- An insertion point of `binary_search_by` is at most the list length. -/
theorem binary_search_by_err_le (f : β → Ordering) (l : List β) (i : Nat)
    (h : binary_search_by f l = .error i) : i ≤ l.length :=
  (bsGo_err_bounds f l 0 l.length (Nat.le_refl _) (Nat.zero_le _) i h).2

/-! Facts about the reversed comparator on naturals, strictly ascending lists,
and correctness of the binary search the engine performs over them. -/

/-- Reversed natural comparison is `.lt` exactly below the key. -/
theorem cmpSwap_lt (a b : Nat) : (compare a b).swap = Ordering.lt ↔ b < a := by
  cases hc : compare a b
  · have := Nat.compare_eq_lt.mp hc
    simp [Ordering.swap]
    omega
  · have := Nat.compare_eq_eq.mp hc
    simp [Ordering.swap]
    omega
  · have := Nat.compare_eq_gt.mp hc
    simp [Ordering.swap]
    omega

/-- Reversed natural comparison is `.eq` exactly at the key. -/
theorem cmpSwap_eq (a b : Nat) : (compare a b).swap = Ordering.eq ↔ a = b := by
  cases hc : compare a b
  · have := Nat.compare_eq_lt.mp hc
    simp [Ordering.swap]
    omega
  · have := Nat.compare_eq_eq.mp hc
    simp [Ordering.swap]
    omega
  · have := Nat.compare_eq_gt.mp hc
    simp [Ordering.swap]
    omega

/-- Reversed natural comparison is `.gt` exactly above the key. -/
theorem cmpSwap_gt (a b : Nat) : (compare a b).swap = Ordering.gt ↔ a < b := by
  cases hc : compare a b
  · have := Nat.compare_eq_lt.mp hc
    simp [Ordering.swap]
    omega
  · have := Nat.compare_eq_eq.mp hc
    simp [Ordering.swap]
    omega
  · have := Nat.compare_eq_gt.mp hc
    simp [Ordering.swap]
    omega

/-- Strict ascent between two positions of a strictly sorted list. -/
theorem sorted_getElem_lt {l : List Nat} (hs : l.Pairwise (· < ·)) {i j : Nat}
    (hi : i < l.length) (hj : j < l.length) (hij : i < j) : l[i] < l[j] :=
  List.pairwise_iff_getElem.mp hs i j hi hj hij

/-- Every element before position `i` of a strictly sorted list is below `l[i]`. -/
theorem sorted_take_lt {l : List Nat} (hs : l.Pairwise (· < ·)) {i : Nat} (hi : i < l.length) :
    ∀ x ∈ l.take i, x < l[i] := by
  intro x hx
  obtain ⟨j, hj, rfl⟩ := List.mem_iff_getElem.mp hx
  have hj' : j < i := by
    simp [List.length_take] at hj
    omega
  rw [List.getElem_take]
  exact List.pairwise_iff_getElem.mp hs j i (by omega) hi hj'

/-- Every element after position `i` of a strictly sorted list is above `l[i]`. -/
theorem sorted_drop_gt {l : List Nat} (hs : l.Pairwise (· < ·)) {i : Nat} (hi : i < l.length) :
    ∀ x ∈ l.drop (i + 1), l[i] < x := by
  intro x hx
  obtain ⟨j, hj, rfl⟩ := List.mem_iff_getElem.mp hx
  have hj' : i + 1 + j < l.length := by
    simp [List.length_drop] at hj
    omega
  rw [List.getElem_drop]
  exact List.pairwise_iff_getElem.mp hs i (i + 1 + j) hi hj' (by omega)

/-- In a strictly sorted list, the first `countP (· < a)` elements are below `a`. -/
theorem sorted_countP_take (a : Nat) :
    ∀ l : List Nat, l.Pairwise (· < ·) →
      ∀ x ∈ l.take (l.countP fun b => decide (b < a)), x < a := by
  intro l
  induction l with
  | nil => simp
  | cons y t IH =>
    intro hs x hx
    rcases List.pairwise_cons.mp hs with ⟨hy, ht⟩
    by_cases hya : y < a
    · have hc : (y :: t).countP (fun b => decide (b < a))
          = t.countP (fun b => decide (b < a)) + 1 := by
        simp [List.countP_cons, hya]
      rw [hc, List.take_succ_cons] at hx
      rcases List.mem_cons.mp hx with rfl | hx2
      · exact hya
      · exact IH ht x hx2
    · have hc : (y :: t).countP (fun b => decide (b < a)) = 0 := by
        rw [List.countP_eq_zero]
        intro b hb
        rcases List.mem_cons.mp hb with rfl | hb2
        · simp [hya]
        · have := hy b hb2
          simp
          omega
      rw [hc] at hx
      simp at hx

/-- In a strictly sorted list, the elements from position `countP (· < a)` on
are at least `a`. -/
theorem sorted_countP_drop (a : Nat) :
    ∀ l : List Nat, l.Pairwise (· < ·) →
      ∀ x ∈ l.drop (l.countP fun b => decide (b < a)), a ≤ x := by
  intro l
  induction l with
  | nil => simp
  | cons y t IH =>
    intro hs x hx
    rcases List.pairwise_cons.mp hs with ⟨hy, ht⟩
    by_cases hya : y < a
    · have hc : (y :: t).countP (fun b => decide (b < a))
          = t.countP (fun b => decide (b < a)) + 1 := by
        simp [List.countP_cons, hya]
      rw [hc, List.drop_succ_cons] at hx
      exact IH ht x hx
    · have hc : (y :: t).countP (fun b => decide (b < a)) = 0 := by
        rw [List.countP_eq_zero]
        intro b hb
        rcases List.mem_cons.mp hb with rfl | hb2
        · simp [hya]
        · have := hy b hb2
          simp
          omega
      rw [hc] at hx
      rw [List.drop_zero] at hx
      rcases List.mem_cons.mp hx with rfl | hx2
      · omega
      · have := hy x hx2
        omega

/-- Binary search for a key absent from a strictly sorted list returns the
insertion point, which is the number of elements below the key.  The two bound
hypotheses are the loop invariant. -/
theorem bsGo_sorted_not_mem (a : Nat) (l : List Nat) (hs : l.Pairwise (· < ·)) (hnm : a ∉ l) :
    ∀ left right (h : right ≤ l.length), left ≤ right →
      (∀ j, (hj : j < l.length) → j < left → l[j] < a) →
      (∀ j, (hj : j < l.length) → right ≤ j → a < l[j]) →
      bsGo (fun b => (compare a b).swap) l left right h
        = .error (l.countP fun b => decide (b < a)) := by
  intro left right h
  induction left, right, h using bsGo.induct (fun b => (compare a b).swap) l with
  | case1 left right h hlr hm hf IH =>
    intro hle hL hR
    have hf' := hf
    rw [List.get_eq_getElem] at hf'
    have hxa : l[left + (right - left) / 2] < a := (cmpSwap_lt a _).mp hf'
    rw [bsGo_step_lt _ l left right h hlr hm hf]
    apply IH (by omega) ?_ hR
    intro j hj hjlt
    by_cases hjl : j < left
    · exact hL j hj hjl
    · have hjm : j ≤ left + (right - left) / 2 := by omega
      rcases Nat.eq_or_lt_of_le hjm with heq | hlt
      · have : l[j] = l[left + (right - left) / 2] := by
          congr 1
        rw [this]
        exact hxa
      · exact lt_trans (sorted_getElem_lt hs hj hm hlt) hxa
  | case2 left right h hlr hm hf IH =>
    intro hle hL hR
    have hf' := hf
    rw [List.get_eq_getElem] at hf'
    have hxa : a < l[left + (right - left) / 2] := (cmpSwap_gt a _).mp hf'
    rw [bsGo_step_gt _ l left right h hlr hm hf (by omega)]
    apply IH (by omega) hL ?_
    intro j hj hjge
    rcases Nat.eq_or_lt_of_le hjge with heq | hlt
    · have : l[j] = l[left + (right - left) / 2] := by
        congr 1
        omega
      rw [this]
      exact hxa
    · exact lt_trans hxa (sorted_getElem_lt hs hm hj hlt)
  | case3 left right h hlr hm hf =>
    intro hle hL hR
    have hf' := hf
    rw [List.get_eq_getElem] at hf'
    have hxa : a = l[left + (right - left) / 2] := (cmpSwap_eq a _).mp hf'
    exact absurd (hxa ▸ List.getElem_mem hm) hnm
  | case4 left right h hlr =>
    intro hle hL hR
    rw [bsGo_stop _ l left right h hlr]
    have h1 : (l.take left).countP (fun b => decide (b < a)) = left := by
      rw [List.countP_eq_length.mpr]
      · rw [List.length_take]
        omega
      · intro x hx
        obtain ⟨j, hj, rfl⟩ := List.mem_iff_getElem.mp hx
        have hj' : j < left := by
          simp [List.length_take] at hj
          omega
        rw [List.getElem_take]
        simp
        exact hL j (by omega) hj'
    have h2 : (l.drop left).countP (fun b => decide (b < a)) = 0 := by
      rw [List.countP_eq_zero]
      intro x hx
      obtain ⟨j, hj, rfl⟩ := List.mem_iff_getElem.mp hx
      have hj' : left + j < l.length := by
        simp [List.length_drop] at hj
        omega
      rw [List.getElem_drop]
      simp
      have := hR (left + j) hj' (by omega)
      omega
    have hcount : l.countP (fun b => decide (b < a)) = left := by
      conv_lhs => rw [← List.take_append_drop left l]
      rw [List.countP_append, h1, h2]
      omega
    rw [hcount]

/-- Binary search for a key present in a strictly sorted list finds an index
holding exactly that key. -/
theorem bsGo_sorted_mem (a : Nat) (l : List Nat) (hs : l.Pairwise (· < ·)) :
    ∀ left right (h : right ≤ l.length), left ≤ right →
      (∀ j, (hj : j < l.length) → j < left → l[j] < a) →
      (∀ j, (hj : j < l.length) → right ≤ j → a < l[j]) →
      a ∈ l →
      ∃ i, ∃ hi : i < l.length,
        bsGo (fun b => (compare a b).swap) l left right h = .ok i ∧ l[i] = a := by
  intro left right h
  induction left, right, h using bsGo.induct (fun b => (compare a b).swap) l with
  | case1 left right h hlr hm hf IH =>
    intro hle hL hR hmem
    have hf' := hf
    rw [List.get_eq_getElem] at hf'
    have hxa : l[left + (right - left) / 2] < a := (cmpSwap_lt a _).mp hf'
    rw [bsGo_step_lt _ l left right h hlr hm hf]
    apply IH (by omega) ?_ hR hmem
    intro j hj hjlt
    by_cases hjl : j < left
    · exact hL j hj hjl
    · have hjm : j ≤ left + (right - left) / 2 := by omega
      rcases Nat.eq_or_lt_of_le hjm with heq | hlt
      · have : l[j] = l[left + (right - left) / 2] := by
          congr 1
        rw [this]
        exact hxa
      · exact lt_trans (sorted_getElem_lt hs hj hm hlt) hxa
  | case2 left right h hlr hm hf IH =>
    intro hle hL hR hmem
    have hf' := hf
    rw [List.get_eq_getElem] at hf'
    have hxa : a < l[left + (right - left) / 2] := (cmpSwap_gt a _).mp hf'
    rw [bsGo_step_gt _ l left right h hlr hm hf (by omega)]
    apply IH (by omega) hL ?_ hmem
    intro j hj hjge
    rcases Nat.eq_or_lt_of_le hjge with heq | hlt
    · have : l[j] = l[left + (right - left) / 2] := by
        congr 1
        omega
      rw [this]
      exact hxa
    · exact lt_trans hxa (sorted_getElem_lt hs hm hj hlt)
  | case3 left right h hlr hm hf =>
    intro hle hL hR hmem
    have hf' := hf
    rw [List.get_eq_getElem] at hf'
    have hxa : a = l[left + (right - left) / 2] := (cmpSwap_eq a _).mp hf'
    exact ⟨left + (right - left) / 2, hm, bsGo_step_eq _ l left right h hlr hm hf, hxa.symm⟩
  | case4 left right h hlr =>
    intro hle hL hR hmem
    obtain ⟨k, hk, hka⟩ := List.mem_iff_getElem.mp hmem
    by_cases hkl : k < left
    · have := hL k hk hkl
      rw [hka] at this
      omega
    · have := hR k hk (by omega)
      rw [hka] at this
      omega

/-- Safety of the full engine: under the consumption contract, whenever the
requested segment lengths fit inside the views, `merge0` hits no panic point
(every `a_slice()[am]` index and `b_slice()[..bn]` sub-slice is in bounds, here
and in every nested recursive call) and consumes exactly `an` and `bn` elements
from the fronts of the two views. -/
theorem merge0_consumes (op : MergeOperation σ α β) (R : MergeStateRead σ α β)
    (hc : Consumes op R) :
    ∀ m an bn, an ≤ (R.a_slice m).length → bn ≤ (R.b_slice m).length →
      ∃ m', op.merge0 R m an bn = some m'
        ∧ R.a_slice m' = (R.a_slice m).drop an
        ∧ R.b_slice m' = (R.b_slice m).drop bn := by
  obtain ⟨hca, hcb, hcc⟩ := hc
  intro m an bn
  induction m, an, bn using MergeOperation.merge0.induct op R with
  | case1 m bn hbn =>
    intro _ hblen
    refine ⟨op.from_b m bn, merge0_nil_pos op R m hbn, ?_, ?_⟩
    · rw [(hcb m bn).1]
      simp
    · exact (hcb m bn).2
  | case2 m bn hbn =>
    intro _ _
    have : bn = 0 := by omega
    subst this
    exact ⟨m, merge0_nil_nil op R m, by simp, by simp⟩
  | case3 m an h0 han =>
    intro halen _
    refine ⟨op.from_a m an, merge0_pos_nil op R m han, ?_, ?_⟩
    · exact (hca m an).1
    · rw [(hca m an).2]
      simp
  | case4 m an h0 han =>
    omega
  | case5 m an bn h0 h1 hla =>
    intro halen hblen
    rw [List.getElem?_eq_none_iff] at hla
    omega
  | case6 m an bn h0 h1 a hla hble bm hsr hrec IH =>
    intro halen hblen
    have hbm : bm < bn := by
      have := binary_search_by_ok_lt _ _ _ hsr
      rw [List.length_take] at this
      omega
    obtain ⟨m', hm', _, _⟩ := IH (by omega) (by omega)
    rw [hm'] at hrec
    exact absurd hrec (by simp)
  | case7 m an bn h0 h1 a hla hble bm hsr m1 hrec IH1 IH2 =>
    intro halen hblen
    have hbm : bm < bn := by
      have := binary_search_by_ok_lt _ _ _ hsr
      rw [List.length_take] at this
      omega
    obtain ⟨m1', hm1', ha1, hb1⟩ := IH1 (by omega) (by omega)
    rw [hrec] at hm1'
    have hm1eq : m1' = m1 := Option.some.inj hm1'.symm
    rw [hm1eq] at ha1 hb1
    have ha2 : R.a_slice (op.collision m1) = (R.a_slice m).drop (an / 2 + 1) := by
      rw [(hcc m1).1, ha1, List.drop_drop]
    have hb2 : R.b_slice (op.collision m1) = (R.b_slice m).drop (bm + 1) := by
      rw [(hcc m1).2, hb1, List.drop_drop]
    obtain ⟨m2, hm2, ha3, hb3⟩ := IH2 (by rw [ha2]; simp; omega) (by rw [hb2]; simp; omega)
    refine ⟨m2, ?_, ?_, ?_⟩
    · rw [merge0_ok op R m h0 h1 hla hble hsr, hrec]
      simpa using hm2
    · rw [ha3, ha2, List.drop_drop]
      have : an / 2 + 1 + (an - an / 2 - 1) = an := by omega
      rw [this]
    · rw [hb3, hb2, List.drop_drop]
      have : bm + 1 + (bn - bm - 1) = bn := by omega
      rw [this]
  | case8 m an bn h0 h1 a hla hble bi hsr hrec IH =>
    intro halen hblen
    have hbi : bi ≤ bn := by
      have := binary_search_by_err_le _ _ _ hsr
      rw [List.length_take] at this
      omega
    obtain ⟨m', hm', _, _⟩ := IH (by omega) (by omega)
    rw [hm'] at hrec
    exact absurd hrec (by simp)
  | case9 m an bn h0 h1 a hla hble bi hsr m1 hrec IH1 IH2 =>
    intro halen hblen
    have hbi : bi ≤ bn := by
      have := binary_search_by_err_le _ _ _ hsr
      rw [List.length_take] at this
      omega
    obtain ⟨m1', hm1', ha1, hb1⟩ := IH1 (by omega) (by omega)
    rw [hrec] at hm1'
    have hm1eq : m1' = m1 := Option.some.inj hm1'.symm
    rw [hm1eq] at ha1 hb1
    have ha2 : R.a_slice (op.from_a m1 1) = (R.a_slice m).drop (an / 2 + 1) := by
      rw [(hca m1 1).1, ha1, List.drop_drop]
    have hb2 : R.b_slice (op.from_a m1 1) = (R.b_slice m).drop bi := by
      rw [(hca m1 1).2, hb1]
    obtain ⟨m2, hm2, ha3, hb3⟩ := IH2 (by rw [ha2]; simp; omega) (by rw [hb2]; simp; omega)
    refine ⟨m2, ?_, ?_, ?_⟩
    · rw [merge0_err op R m h0 h1 hla hble hsr, hrec]
      simpa using hm2
    · rw [ha3, ha2, List.drop_drop]
      have : an / 2 + 1 + (an - an / 2 - 1) = an := by omega
      rw [this]
    · rw [hb3, hb2, List.drop_drop]
      have : bi + (bn - bi) = bn := by omega
      rw [this]
  | case10 m an bn h0 h1 a hla hble =>
    intro halen hblen
    omega

/-- Consumption counts add up over concatenated event lists (a side). -/
theorem sumA_append (l1 l2 : List (MEvent κ)) : sumA (l1 ++ l2) = sumA l1 + sumA l2 := by
  induction l1 with
  | nil => simp [sumA]
  | cons e t IH =>
    cases e <;> simp [sumA, IH] <;> omega

/-- Consumption counts add up over concatenated event lists (b side). -/
theorem sumB_append (l1 l2 : List (MEvent κ)) : sumB (l1 ++ l2) = sumB l1 + sumB l2 := by
  induction l1 with
  | nil => simp [sumB]
  | cons e t IH =>
    cases e <;> simp [sumB, IH] <;> omega

/-- Collision keys concatenate over concatenated event lists. -/
theorem collKeys_append (l1 l2 : List (MEvent κ)) :
    collKeys (l1 ++ l2) = collKeys l1 ++ collKeys l2 :=
  List.filterMap_append l1 l2 _

/-- The instrumented engine computes the same states as the plain engine: first
components of its results coincide with the plain run, panics included. -/
theorem merge0_instr_fst (op : MergeOperation σ α β) (R : MergeStateRead σ α β) :
    ∀ (p : σ × List (MEvent Unit)) an bn,
      ((instrument op).merge0 (instrumentRead R) p an bn).map Prod.fst
        = op.merge0 R p.1 an bn := by
  intro p an bn
  induction p, an, bn using MergeOperation.merge0.induct (instrument op) (instrumentRead R) with
  | case1 p bn hbn =>
    rw [merge0_nil_pos _ _ p hbn, merge0_nil_pos op R p.1 hbn]
    simp [instrument]
  | case2 p bn hbn =>
    have : bn = 0 := by omega
    subst this
    rw [merge0_nil_nil, merge0_nil_nil]
    simp
  | case3 p an h0 han =>
    rw [merge0_pos_nil _ _ p han, merge0_pos_nil op R p.1 han]
    simp [instrument]
  | case4 p an h0 han =>
    omega
  | case5 p an bn h0 h1 hla =>
    rw [merge0_panic_a _ _ p h0 h1 hla]
    rw [merge0_panic_a op R p.1 h0 h1 (by simpa [instrumentRead] using hla)]
    simp
  | case6 p an bn h0 h1 a hla hble bm hsr hrec IH =>
    rw [merge0_ok _ _ p h0 h1 hla hble hsr, hrec]
    rw [merge0_ok op R p.1 h0 h1 (by simpa [instrumentRead] using hla)
      (by simpa [instrumentRead] using hble)
      (by simpa [instrument, instrumentRead] using hsr)]
    rw [hrec] at IH
    simp at IH
    rw [← IH]
    rfl
  | case7 p an bn h0 h1 a hla hble bm hsr p1 hrec IH1 IH2 =>
    rw [merge0_ok _ _ p h0 h1 hla hble hsr, hrec]
    rw [merge0_ok op R p.1 h0 h1 (by simpa [instrumentRead] using hla)
      (by simpa [instrumentRead] using hble)
      (by simpa [instrument, instrumentRead] using hsr)]
    rw [hrec] at IH1
    simp at IH1
    rw [← IH1]
    simp only [Option.some_bind]
    have : ((instrument op).collision p1).1 = op.collision p1.1 := by
      simp [instrument]
    rw [← this]
    exact IH2
  | case8 p an bn h0 h1 a hla hble bi hsr hrec IH =>
    rw [merge0_err _ _ p h0 h1 hla hble hsr, hrec]
    rw [merge0_err op R p.1 h0 h1 (by simpa [instrumentRead] using hla)
      (by simpa [instrumentRead] using hble)
      (by simpa [instrument, instrumentRead] using hsr)]
    rw [hrec] at IH
    simp at IH
    rw [← IH]
    rfl
  | case9 p an bn h0 h1 a hla hble bi hsr p1 hrec IH1 IH2 =>
    rw [merge0_err _ _ p h0 h1 hla hble hsr, hrec]
    rw [merge0_err op R p.1 h0 h1 (by simpa [instrumentRead] using hla)
      (by simpa [instrumentRead] using hble)
      (by simpa [instrument, instrumentRead] using hsr)]
    rw [hrec] at IH1
    simp at IH1
    rw [← IH1]
    simp only [Option.some_bind]
    have : ((instrument op).from_a p1 1).1 = op.from_a p1.1 1 := by
      simp [instrument]
    rw [← this]
    exact IH2
  | case10 p an bn h0 h1 a hla hble =>
    rw [merge0_panic_b _ _ p h0 h1 hla hble]
    rw [merge0_panic_b op R p.1 h0 h1 (by simpa [instrumentRead] using hla)
      (by simpa [instrumentRead] using hble)]
    simp

/-- Callback accounting of the full engine: any completed call `merge0 an bn`
appends a block of events whose a-side consumption (the `from_a` arguments plus
the number of collisions) is exactly `an` and whose b-side consumption (the
`from_b` arguments plus the number of collisions) is exactly `bn`. -/
theorem merge0_instr_trace (op : MergeOperation σ α β) (R : MergeStateRead σ α β) :
    ∀ (p : σ × List (MEvent Unit)) an bn p',
      (instrument op).merge0 (instrumentRead R) p an bn = some p' →
      ∃ T, p'.2 = p.2 ++ T ∧ sumA T = an ∧ sumB T = bn := by
  intro p an bn
  induction p, an, bn using MergeOperation.merge0.induct (instrument op) (instrumentRead R) with
  | case1 p bn hbn =>
    intro p' hp'
    rw [merge0_nil_pos _ _ p hbn] at hp'
    refine ⟨[.fromB bn], ?_, by simp [sumA], by simp [sumB]⟩
    rw [← Option.some.inj hp']
    simp [instrument]
  | case2 p bn hbn =>
    intro p' hp'
    have : bn = 0 := by omega
    subst this
    rw [merge0_nil_nil] at hp'
    refine ⟨[], ?_, by simp [sumA], by simp [sumB]⟩
    rw [← Option.some.inj hp']
    simp
  | case3 p an h0 han =>
    intro p' hp'
    rw [merge0_pos_nil _ _ p han] at hp'
    refine ⟨[.fromA an], ?_, by simp [sumA], by simp [sumB]⟩
    rw [← Option.some.inj hp']
    simp [instrument]
  | case4 p an h0 han =>
    omega
  | case5 p an bn h0 h1 hla =>
    intro p' hp'
    rw [merge0_panic_a _ _ p h0 h1 hla] at hp'
    simp at hp'
  | case6 p an bn h0 h1 a hla hble bm hsr hrec IH =>
    intro p' hp'
    rw [merge0_ok _ _ p h0 h1 hla hble hsr, hrec] at hp'
    simp at hp'
  | case7 p an bn h0 h1 a hla hble bm hsr p1 hrec IH1 IH2 =>
    intro p' hp'
    have hbm : bm < bn := by
      have := binary_search_by_ok_lt _ _ _ hsr
      rw [List.length_take] at this
      omega
    rw [merge0_ok _ _ p h0 h1 hla hble hsr, hrec] at hp'
    simp only [Option.some_bind] at hp'
    obtain ⟨T1, hT1, hTa1, hTb1⟩ := IH1 p1 hrec
    obtain ⟨T2, hT2, hTa2, hTb2⟩ := IH2 p' hp'
    refine ⟨T1 ++ [.coll ()] ++ T2, ?_, ?_, ?_⟩
    · rw [hT2]
      have : ((instrument op).collision p1).2 = p1.2 ++ [.coll ()] := by
        simp [instrument]
      rw [this, hT1]
      simp
    · rw [sumA_append, sumA_append, hTa1, hTa2]
      simp [sumA]
      omega
    · rw [sumB_append, sumB_append, hTb1, hTb2]
      simp [sumB]
      omega
  | case8 p an bn h0 h1 a hla hble bi hsr hrec IH =>
    intro p' hp'
    rw [merge0_err _ _ p h0 h1 hla hble hsr, hrec] at hp'
    simp at hp'
  | case9 p an bn h0 h1 a hla hble bi hsr p1 hrec IH1 IH2 =>
    intro p' hp'
    have hbi : bi ≤ bn := by
      have := binary_search_by_err_le _ _ _ hsr
      rw [List.length_take] at this
      omega
    rw [merge0_err _ _ p h0 h1 hla hble hsr, hrec] at hp'
    simp only [Option.some_bind] at hp'
    obtain ⟨T1, hT1, hTa1, hTb1⟩ := IH1 p1 hrec
    obtain ⟨T2, hT2, hTa2, hTb2⟩ := IH2 p' hp'
    refine ⟨T1 ++ [.fromA 1] ++ T2, ?_, ?_, ?_⟩
    · rw [hT2]
      have : ((instrument op).from_a p1 1).2 = p1.2 ++ [.fromA 1] := by
        simp [instrument]
      rw [this, hT1]
      simp
    · rw [sumA_append, sumA_append, hTa1, hTa2]
      simp [sumA]
      omega
    · rw [sumB_append, sumB_append, hTb1, hTb2]
      simp [sumB]
      omega
  | case10 p an bn h0 h1 a hla hble =>
    intro p' hp'
    rw [merge0_panic_b _ _ p h0 h1 hla hble] at hp'
    simp at hp'

/-- Taking a shorter segment of a longer segment. -/
theorem take_take_eq (l : List α) (i n : Nat) (h : i ≤ n) : (l.take n).take i = l.take i := by
  rw [List.take_take]
  congr 1
  omega

/-- Splitting a segment at an interior index. -/
theorem take_decomp (l : List α) (i n : Nat) (h : i ≤ n) :
    l.take n = l.take i ++ (l.drop i).take (n - i) := by
  conv_lhs => rw [← List.take_append_drop i (l.take n)]
  rw [take_take_eq l i n h, List.drop_take]

/-- Splitting a segment at an interior pivot element. -/
theorem take_decomp_pivot (l : List α) (i n : Nat) (a : α) (hi : i < l.length)
    (ha : l[i] = a) (hin : i < n) :
    l.take n = l.take i ++ a :: (l.drop (i + 1)).take (n - i - 1) := by
  rw [take_decomp l i n (by omega)]
  congr 1
  rw [← List.getElem_cons_drop l i hi, ha]
  have h1 : n - i = (n - i - 1) + 1 := by omega
  rw [h1, List.take_succ_cons]
  have h2 : n - i - 1 + 1 - 1 = n - i - 1 := by omega
  rw [h2]

/-- Collision keys of an event list headed by a collision. -/
theorem collKeys_cons_coll (k : κ) (t : List (MEvent κ)) :
    collKeys (.coll k :: t) = k :: collKeys t := by
  simp [collKeys]

/-- Collision keys ignore a leading `fromA` event. -/
theorem collKeys_cons_fromA (n : Nat) (t : List (MEvent κ)) :
    collKeys (.fromA n :: t) = collKeys t := by
  simp [collKeys]

/-- Collision keys ignore a leading `fromB` event. -/
theorem collKeys_cons_fromB (n : Nat) (t : List (MEvent κ)) :
    collKeys (.fromB n :: t) = collKeys t := by
  simp [collKeys]

/-- A found index carries an element whose comparison is `.eq`. -/
theorem bsGo_ok_feq (f : β → Ordering) (l : List β) :
    ∀ left right (h : right ≤ l.length), ∀ i,
      bsGo f l left right h = .ok i → ∃ hi : i < l.length, f l[i] = .eq := by
  intro left right h
  induction left, right, h using bsGo.induct f l with
  | case1 left right h hlr hm hf IH =>
    intro i hi
    rw [bsGo_step_lt f l left right h hlr hm hf] at hi
    exact IH i hi
  | case2 left right h hlr hm hf IH =>
    intro i hi
    rw [bsGo_step_gt f l left right h hlr hm hf (by omega)] at hi
    exact IH i hi
  | case3 left right h hlr hm hf =>
    intro i hi
    rw [bsGo_step_eq f l left right h hlr hm hf] at hi
    simp at hi
    rw [List.get_eq_getElem] at hf
    subst hi
    exact ⟨hm, hf⟩
  | case4 left right h hlr =>
    intro i hi
    rw [bsGo_stop f l left right h hlr] at hi
    simp at hi

/-- A found index of `binary_search_by` carries an element comparing `.eq`. -/
theorem binary_search_by_ok_feq (f : β → Ordering) (l : List β) (i : Nat)
    (h : binary_search_by f l = .ok i) : ∃ hi : i < l.length, f l[i] = .eq :=
  bsGo_ok_feq f l 0 l.length (Nat.le_refl _) i h

/-- Binary search with the merge comparator finds a present key. -/
theorem binary_search_sorted_mem (a : Nat) (l : List Nat) (hs : l.Pairwise (· < ·))
    (hm : a ∈ l) :
    ∃ i, ∃ hi : i < l.length,
      binary_search_by (fun b => (compare a b).swap) l = .ok i ∧ l[i] = a := by
  apply bsGo_sorted_mem a l hs 0 l.length (Nat.le_refl _) (Nat.zero_le _) _ _ hm
  · intro j hj hj0
    exact absurd hj0 (Nat.not_lt_zero j)
  · intro j hj hjge
    exact absurd hj (Nat.not_lt.mpr hjge)

/-- Binary search with the merge comparator reports the insertion point of an
absent key: the number of elements below it. -/
theorem binary_search_sorted_not_mem (a : Nat) (l : List Nat) (hs : l.Pairwise (· < ·))
    (hnm : a ∉ l) :
    binary_search_by (fun b => (compare a b).swap) l
      = .error (l.countP fun b => decide (b < a)) := by
  apply bsGo_sorted_not_mem a l hs hnm 0 l.length (Nat.le_refl _) (Nat.zero_le _)
  · intro j hj hj0
    exact absurd hj0 (Nat.not_lt_zero j)
  · intro j hj hjge
    exact absurd hj (Nat.not_lt.mpr hjge)

set_option maxHeartbeats 1000000 in
/-- Full run of the union policy over well-formed segments: `merge0 an bn`
consumes the segments exactly, appends to the accumulator an output that is the
strictly sorted union of the two segments' keys, logs one collision event per
key present in both segments (in ascending key order), and consumes `an` and
`bn` elements through its callbacks, all of which receive positive counts. -/
theorem merge0_union_spec :
    ∀ (m : UState) an bn,
      an ≤ m.a.length → bn ≤ m.b.length →
      (m.a.take an).Pairwise (· < ·) → (m.b.take bn).Pairwise (· < ·) →
      ∃ O T,
        unionOp.merge0 uRead m an bn
          = some ⟨m.a.drop an, m.b.drop bn, m.out ++ O, m.evs ++ T⟩
        ∧ O.Pairwise (· < ·)
        ∧ (∀ x, x ∈ O ↔ x ∈ m.a.take an ∨ x ∈ m.b.take bn)
        ∧ collKeys T = (m.a.take an).filter (fun x => decide (x ∈ m.b.take bn))
        ∧ sumA T = an ∧ sumB T = bn
        ∧ (∀ n, MEvent.fromA n ∈ T → 0 < n)
        ∧ (∀ n, MEvent.fromB n ∈ T → 0 < n) := by
  intro m an bn
  induction m, an, bn using MergeOperation.merge0.induct unionOp uRead with
  | case1 m bn hbn =>
    intro halen hblen has hbs
    refine ⟨m.b.take bn, [.fromB bn], ?_, hbs, ?_, ?_, by simp [sumA], by simp [sumB], ?_, ?_⟩
    · rw [merge0_nil_pos unionOp uRead m hbn]
      simp [unionOp]
    · intro x
      simp
    · simp [collKeys]
    · intro n hn
      simp at hn
    · intro n hn
      simp at hn
      omega
  | case2 m bn hbn =>
    intro halen hblen has hbs
    have : bn = 0 := by omega
    subst this
    refine ⟨[], [], ?_, by simp, by simp, by simp [collKeys], by simp [sumA],
      by simp [sumB], by simp, by simp⟩
    rw [merge0_nil_nil]
    simp
  | case3 m an h0 han =>
    intro halen hblen has hbs
    refine ⟨m.a.take an, [.fromA an], ?_, has, ?_, ?_, by simp [sumA], by simp [sumB], ?_, ?_⟩
    · rw [merge0_pos_nil unionOp uRead m han]
      simp [unionOp]
    · intro x
      simp
    · simp [collKeys]
    · intro n hn
      simp at hn
      omega
    · intro n hn
      simp at hn
  | case4 m an h0 han =>
    omega
  | case5 m an bn h0 h1 hla =>
    intro halen hblen has hbs
    simp only [uRead] at hla
    rw [List.getElem?_eq_none_iff] at hla
    omega
  | case6 m an bn h0 h1 a hla hble bm hsr hrec IH =>
    intro halen hblen has hbs
    have hble' : bn ≤ m.b.length := by simpa [uRead] using hble
    have hsr' : binary_search_by (fun b => (compare a b).swap) (m.b.take bn) = .ok bm := by
      simpa [unionOp, uRead] using hsr
    have hbm : bm < bn := by
      have := binary_search_by_ok_lt _ _ _ hsr'
      rw [List.length_take] at this
      omega
    obtain ⟨O1, T1, heq1, _⟩ := IH (by omega) (by omega)
      (by rw [← take_take_eq m.a (an / 2) an (by omega)]
          exact List.Pairwise.sublist (List.take_sublist _ _) has)
      (by rw [← take_take_eq m.b bm bn (by omega)]
          exact List.Pairwise.sublist (List.take_sublist _ _) hbs)
    rw [heq1] at hrec
    simp at hrec
  | case8 m an bn h0 h1 a hla hble bi hsr hrec IH =>
    intro halen hblen has hbs
    have hble' : bn ≤ m.b.length := by simpa [uRead] using hble
    have hsr' : binary_search_by (fun b => (compare a b).swap) (m.b.take bn) = .error bi := by
      simpa [unionOp, uRead] using hsr
    have hbi : bi ≤ bn := by
      have := binary_search_by_err_le _ _ _ hsr'
      rw [List.length_take] at this
      omega
    obtain ⟨O1, T1, heq1, _⟩ := IH (by omega) (by omega)
      (by rw [← take_take_eq m.a (an / 2) an (by omega)]
          exact List.Pairwise.sublist (List.take_sublist _ _) has)
      (by rw [← take_take_eq m.b bi bn (by omega)]
          exact List.Pairwise.sublist (List.take_sublist _ _) hbs)
    rw [heq1] at hrec
    simp at hrec
  | case7 m an bn h0 h1 a hla hble bm hsr m1 hrec IH1 IH2 =>
    intro halen hblen has hbs
    have hla' : m.a[an / 2]? = some a := by simpa [uRead] using hla
    have hble' : bn ≤ m.b.length := by simpa [uRead] using hble
    have hsr' : binary_search_by (fun b => (compare a b).swap) (m.b.take bn) = .ok bm := by
      simpa [unionOp, uRead] using hsr
    rw [List.getElem?_eq_some] at hla'
    obtain ⟨ham, haeq⟩ := hla'
    have hamn : an / 2 < an := by omega
    have hbm : bm < bn := by
      have := binary_search_by_ok_lt _ _ _ hsr'
      rw [List.length_take] at this
      omega
    obtain ⟨hbml, hfeq⟩ := binary_search_by_ok_feq _ _ _ hsr'
    have hbeq : (m.b.take bn)[bm] = a := ((cmpSwap_eq a _).mp hfeq).symm
    have hbmlen : bm < m.b.length := by omega
    have hbeq' : m.b[bm] = a := by
      rw [List.getElem_take] at hbeq
      exact hbeq
    have hAdec : m.a.take an
        = m.a.take (an / 2) ++ a :: (m.a.drop (an / 2 + 1)).take (an - an / 2 - 1) :=
      take_decomp_pivot m.a (an / 2) an a ham haeq hamn
    have hBdec : m.b.take bn
        = m.b.take bm ++ a :: (m.b.drop (bm + 1)).take (bn - bm - 1) :=
      take_decomp_pivot m.b bm bn a hbmlen hbeq' hbm
    have hlenA : an / 2 < (m.a.take an).length := by
      rw [List.length_take]
      omega
    have hgetA : (m.a.take an)[an / 2] = a := by
      rw [List.getElem_take]
      exact haeq
    have hgetB : (m.b.take bn)[bm] = a := hbeq
    have hsplitA2 : (m.a.take an).drop (an / 2 + 1)
        = (m.a.drop (an / 2 + 1)).take (an - an / 2 - 1) := by
      rw [List.drop_take]
      have h3 : an - (an / 2 + 1) = an - an / 2 - 1 := by omega
      rw [h3]
    have hsplitB2 : (m.b.take bn).drop (bm + 1)
        = (m.b.drop (bm + 1)).take (bn - bm - 1) := by
      rw [List.drop_take]
      have h3 : bn - (bm + 1) = bn - bm - 1 := by omega
      rw [h3]
    have hA1lt : ∀ x ∈ m.a.take (an / 2), x < a := by
      have h1 := sorted_take_lt has hlenA
      rw [take_take_eq m.a (an / 2) an (by omega), hgetA] at h1
      exact h1
    have hA2gt : ∀ x ∈ (m.a.drop (an / 2 + 1)).take (an - an / 2 - 1), a < x := by
      have h1 := sorted_drop_gt has hlenA
      rw [hgetA, hsplitA2] at h1
      exact h1
    have hB1lt : ∀ x ∈ m.b.take bm, x < a := by
      have h1 := sorted_take_lt hbs hbml
      rw [take_take_eq m.b bm bn (by omega), hgetB] at h1
      exact h1
    have hB2gt : ∀ x ∈ (m.b.drop (bm + 1)).take (bn - bm - 1), a < x := by
      have h1 := sorted_drop_gt hbs hbml
      rw [hgetB, hsplitB2] at h1
      exact h1
    obtain ⟨O1, T1, heq1, hsort1, hmem1, hkeys1, hsa1, hsb1, hpa1, hpb1⟩ :=
      IH1 (by omega) (by omega)
        (by rw [← take_take_eq m.a (an / 2) an (by omega)]
            exact List.Pairwise.sublist (List.take_sublist _ _) has)
        (by rw [← take_take_eq m.b bm bn (by omega)]
            exact List.Pairwise.sublist (List.take_sublist _ _) hbs)
    rw [heq1] at hrec
    have hm1 : m1 = ⟨m.a.drop (an / 2), m.b.drop bm, m.out ++ O1, m.evs ++ T1⟩ :=
      (Option.some.inj hrec).symm
    have hdropA : m.a.drop (an / 2) = a :: m.a.drop (an / 2 + 1) := by
      rw [← List.getElem_cons_drop m.a (an / 2) ham, haeq]
    have hcoll : unionOp.collision ⟨m.a.drop (an / 2), m.b.drop bm, m.out ++ O1, m.evs ++ T1⟩
        = ⟨m.a.drop (an / 2 + 1), m.b.drop (bm + 1), (m.out ++ O1) ++ [a],
           (m.evs ++ T1) ++ [.coll a]⟩ := by
      simp [unionOp, hdropA, List.drop_drop]
    rw [hm1, hcoll] at IH2
    obtain ⟨O2, T2, heq2, hsort2, hmem2, hkeys2, hsa2, hsb2, hpa2, hpb2⟩ :=
      IH2 (by simp; omega) (by simp; omega)
        (by rw [← hsplitA2]
            exact List.Pairwise.sublist (List.drop_sublist _ _) has)
        (by rw [← hsplitB2]
            exact List.Pairwise.sublist (List.drop_sublist _ _) hbs)
    dsimp only at heq2 hsort2 hmem2 hkeys2 hsa2 hsb2 hpa2 hpb2
    refine ⟨O1 ++ a :: O2, T1 ++ .coll a :: T2, ?_, ?_, ?_, ?_, ?_, ?_, ?_, ?_⟩
    · rw [merge0_ok unionOp uRead m h0 h1 hla hble hsr, heq1]
      simp only [Option.some_bind]
      rw [hcoll, heq2]
      have h4 : an / 2 + 1 + (an - an / 2 - 1) = an := by omega
      have h5 : bm + 1 + (bn - bm - 1) = bn := by omega
      simp [List.drop_drop, List.append_assoc, h4, h5]
    · rw [List.pairwise_append]
      refine ⟨hsort1, ?_, ?_⟩
      · rw [List.pairwise_cons]
        refine ⟨?_, hsort2⟩
        intro y hy
        rcases (hmem2 y).mp hy with h | h
        · exact hA2gt y h
        · exact hB2gt y h
      · intro x hx y hy
        have hxa : x < a := by
          rcases (hmem1 x).mp hx with h | h
          · exact hA1lt x h
          · exact hB1lt x h
        rcases List.mem_cons.mp hy with rfl | hy2
        · exact hxa
        · have hay : a < y := by
            rcases (hmem2 y).mp hy2 with h | h
            · exact hA2gt y h
            · exact hB2gt y h
          omega
    · intro x
      rw [hAdec, hBdec]
      simp only [List.mem_append, List.mem_cons]
      constructor
      · rintro (h | rfl | h)
        · rcases (hmem1 x).mp h with h2 | h2
          · exact Or.inl (Or.inl h2)
          · exact Or.inr (Or.inl h2)
        · exact Or.inl (Or.inr (Or.inl rfl))
        · rcases (hmem2 x).mp h with h2 | h2
          · exact Or.inl (Or.inr (Or.inr h2))
          · exact Or.inr (Or.inr (Or.inr h2))
      · rintro ((h | rfl | h) | (h | rfl | h))
        · exact Or.inl ((hmem1 x).mpr (Or.inl h))
        · exact Or.inr (Or.inl rfl)
        · exact Or.inr (Or.inr ((hmem2 x).mpr (Or.inl h)))
        · exact Or.inl ((hmem1 x).mpr (Or.inr h))
        · exact Or.inr (Or.inl rfl)
        · exact Or.inr (Or.inr ((hmem2 x).mpr (Or.inr h)))
    · rw [collKeys_append, collKeys_cons_coll, hkeys1, hkeys2]
      rw [hAdec, List.filter_append]
      have hain : a ∈ m.b.take bn := by
        rw [hBdec]
        simp
      have hf1 : (m.a.take (an / 2)).filter (fun x => decide (x ∈ m.b.take bm))
          = (m.a.take (an / 2)).filter (fun x => decide (x ∈ m.b.take bn)) := by
        apply List.filter_congr
        intro x hx
        have hxa : x < a := hA1lt x hx
        have hiff : (x ∈ m.b.take bm) ↔ (x ∈ m.b.take bn) := by
          rw [hBdec]
          simp only [List.mem_append, List.mem_cons]
          constructor
          · intro h
            exact Or.inl h
          · rintro (h | rfl | h)
            · exact h
            · omega
            · have := hB2gt x h
              omega
        simp [hiff]
      have hf2 : ((m.a.drop (an / 2 + 1)).take (an - an / 2 - 1)).filter
            (fun x => decide (x ∈ (m.b.drop (bm + 1)).take (bn - bm - 1)))
          = ((m.a.drop (an / 2 + 1)).take (an - an / 2 - 1)).filter
            (fun x => decide (x ∈ m.b.take bn)) := by
        apply List.filter_congr
        intro x hx
        have hxa : a < x := hA2gt x hx
        have hiff : (x ∈ (m.b.drop (bm + 1)).take (bn - bm - 1)) ↔ (x ∈ m.b.take bn) := by
          rw [hBdec]
          simp only [List.mem_append, List.mem_cons]
          constructor
          · intro h
            exact Or.inr (Or.inr h)
          · rintro (h | rfl | h)
            · have := hB1lt x h
              omega
            · omega
            · exact h
        simp [hiff]
      rw [hf1, hf2]
      simp [List.filter_cons, hain]
    · rw [sumA_append]
      simp [sumA, hsa1, hsa2]
      omega
    · rw [sumB_append]
      simp [sumB, hsb1, hsb2]
      omega
    · intro n hn
      rcases List.mem_append.mp hn with h | h
      · exact hpa1 n h
      · rcases List.mem_cons.mp h with heq | h2
        · simp at heq
        · exact hpa2 n h2
    · intro n hn
      rcases List.mem_append.mp hn with h | h
      · exact hpb1 n h
      · rcases List.mem_cons.mp h with heq | h2
        · simp at heq
        · exact hpb2 n h2
  | case9 m an bn h0 h1 a hla hble bi hsr m1 hrec IH1 IH2 =>
    intro halen hblen has hbs
    have hla' : m.a[an / 2]? = some a := by simpa [uRead] using hla
    have hble' : bn ≤ m.b.length := by simpa [uRead] using hble
    have hsr' : binary_search_by (fun b => (compare a b).swap) (m.b.take bn) = .error bi := by
      simpa [unionOp, uRead] using hsr
    rw [List.getElem?_eq_some] at hla'
    obtain ⟨ham, haeq⟩ := hla'
    have hamn : an / 2 < an := by omega
    have hbi : bi ≤ bn := by
      have := binary_search_by_err_le _ _ _ hsr'
      rw [List.length_take] at this
      omega
    have hnm : a ∉ m.b.take bn := by
      intro hmem
      obtain ⟨i, hi, hok, hieq⟩ := binary_search_sorted_mem a _ hbs hmem
      rw [hsr'] at hok
      simp at hok
    have hbiv : bi = (m.b.take bn).countP (fun b => decide (b < a)) := by
      have hns := binary_search_sorted_not_mem a _ hbs hnm
      rw [hns] at hsr'
      exact (Except.error.inj hsr').symm
    have hsplit1 : (m.b.take bn).take bi = m.b.take bi := take_take_eq m.b bi bn hbi
    have hsplit2 : (m.b.take bn).drop bi = (m.b.drop bi).take (bn - bi) :=
      List.drop_take bn bi m.b
    have hAdec : m.a.take an
        = m.a.take (an / 2) ++ a :: (m.a.drop (an / 2 + 1)).take (an - an / 2 - 1) :=
      take_decomp_pivot m.a (an / 2) an a ham haeq hamn
    have hBdec : m.b.take bn = m.b.take bi ++ (m.b.drop bi).take (bn - bi) :=
      take_decomp m.b bi bn hbi
    have hlenA : an / 2 < (m.a.take an).length := by
      rw [List.length_take]
      omega
    have hgetA : (m.a.take an)[an / 2] = a := by
      rw [List.getElem_take]
      exact haeq
    have hsplitA2 : (m.a.take an).drop (an / 2 + 1)
        = (m.a.drop (an / 2 + 1)).take (an - an / 2 - 1) := by
      rw [List.drop_take]
      have h3 : an - (an / 2 + 1) = an - an / 2 - 1 := by omega
      rw [h3]
    have hA1lt : ∀ x ∈ m.a.take (an / 2), x < a := by
      have h1 := sorted_take_lt has hlenA
      rw [take_take_eq m.a (an / 2) an (by omega), hgetA] at h1
      exact h1
    have hA2gt : ∀ x ∈ (m.a.drop (an / 2 + 1)).take (an - an / 2 - 1), a < x := by
      have h1 := sorted_drop_gt has hlenA
      rw [hgetA, hsplitA2] at h1
      exact h1
    have hB1lt : ∀ x ∈ m.b.take bi, x < a := by
      intro x hx
      apply sorted_countP_take a (m.b.take bn) hbs
      rw [← hbiv, hsplit1]
      exact hx
    have hB2gt : ∀ x ∈ (m.b.drop bi).take (bn - bi), a < x := by
      intro x hx
      have hle : a ≤ x := by
        apply sorted_countP_drop a (m.b.take bn) hbs
        rw [← hbiv, hsplit2]
        exact hx
      have hxmem : x ∈ m.b.take bn := by
        rw [← hsplit2] at hx
        exact (List.drop_sublist bi (m.b.take bn)).subset hx
      have hne : x ≠ a := by
        intro heq
        rw [heq] at hxmem
        exact hnm hxmem
      omega
    obtain ⟨O1, T1, heq1, hsort1, hmem1, hkeys1, hsa1, hsb1, hpa1, hpb1⟩ :=
      IH1 (by omega) (by omega)
        (by rw [← take_take_eq m.a (an / 2) an (by omega)]
            exact List.Pairwise.sublist (List.take_sublist _ _) has)
        (by rw [← hsplit1]
            exact List.Pairwise.sublist (List.take_sublist _ _) hbs)
    rw [heq1] at hrec
    have hm1 : m1 = ⟨m.a.drop (an / 2), m.b.drop bi, m.out ++ O1, m.evs ++ T1⟩ :=
      (Option.some.inj hrec).symm
    have hdropA : m.a.drop (an / 2) = a :: m.a.drop (an / 2 + 1) := by
      rw [← List.getElem_cons_drop m.a (an / 2) ham, haeq]
    have hfa : unionOp.from_a ⟨m.a.drop (an / 2), m.b.drop bi, m.out ++ O1, m.evs ++ T1⟩ 1
        = ⟨m.a.drop (an / 2 + 1), m.b.drop bi, (m.out ++ O1) ++ [a],
           (m.evs ++ T1) ++ [.fromA 1]⟩ := by
      simp [unionOp, hdropA]
    rw [hm1, hfa] at IH2
    obtain ⟨O2, T2, heq2, hsort2, hmem2, hkeys2, hsa2, hsb2, hpa2, hpb2⟩ :=
      IH2 (by simp; omega) (by simp; omega)
        (by rw [← hsplitA2]
            exact List.Pairwise.sublist (List.drop_sublist _ _) has)
        (by rw [← hsplit2]
            exact List.Pairwise.sublist (List.drop_sublist _ _) hbs)
    dsimp only at heq2 hsort2 hmem2 hkeys2 hsa2 hsb2 hpa2 hpb2
    refine ⟨O1 ++ a :: O2, T1 ++ .fromA 1 :: T2, ?_, ?_, ?_, ?_, ?_, ?_, ?_, ?_⟩
    · rw [merge0_err unionOp uRead m h0 h1 hla hble hsr, heq1]
      simp only [Option.some_bind]
      rw [hfa, heq2]
      have h4 : an / 2 + 1 + (an - an / 2 - 1) = an := by omega
      have h5 : bi + (bn - bi) = bn := by omega
      simp [List.drop_drop, List.append_assoc, h4, h5]
    · rw [List.pairwise_append]
      refine ⟨hsort1, ?_, ?_⟩
      · rw [List.pairwise_cons]
        refine ⟨?_, hsort2⟩
        intro y hy
        rcases (hmem2 y).mp hy with h | h
        · exact hA2gt y h
        · exact hB2gt y h
      · intro x hx y hy
        have hxa : x < a := by
          rcases (hmem1 x).mp hx with h | h
          · exact hA1lt x h
          · exact hB1lt x h
        rcases List.mem_cons.mp hy with rfl | hy2
        · exact hxa
        · have hay : a < y := by
            rcases (hmem2 y).mp hy2 with h | h
            · exact hA2gt y h
            · exact hB2gt y h
          omega
    · intro x
      rw [hAdec, hBdec]
      simp only [List.mem_append, List.mem_cons]
      constructor
      · rintro (h | rfl | h)
        · rcases (hmem1 x).mp h with h2 | h2
          · exact Or.inl (Or.inl h2)
          · exact Or.inr (Or.inl h2)
        · exact Or.inl (Or.inr (Or.inl rfl))
        · rcases (hmem2 x).mp h with h2 | h2
          · exact Or.inl (Or.inr (Or.inr h2))
          · exact Or.inr (Or.inr h2)
      · rintro ((h | rfl | h) | (h | h))
        · exact Or.inl ((hmem1 x).mpr (Or.inl h))
        · exact Or.inr (Or.inl rfl)
        · exact Or.inr (Or.inr ((hmem2 x).mpr (Or.inl h)))
        · exact Or.inl ((hmem1 x).mpr (Or.inr h))
        · exact Or.inr (Or.inr ((hmem2 x).mpr (Or.inr h)))
    · rw [collKeys_append, collKeys_cons_fromA, hkeys1, hkeys2]
      rw [hAdec, List.filter_append]
      have hanotin : (a ∈ m.b.take bn) = False := by
        simp [hnm]
      have hf1 : (m.a.take (an / 2)).filter (fun x => decide (x ∈ m.b.take bi))
          = (m.a.take (an / 2)).filter (fun x => decide (x ∈ m.b.take bn)) := by
        apply List.filter_congr
        intro x hx
        have hxa : x < a := hA1lt x hx
        have hiff : (x ∈ m.b.take bi) ↔ (x ∈ m.b.take bn) := by
          rw [hBdec]
          simp only [List.mem_append]
          constructor
          · intro h
            exact Or.inl h
          · rintro (h | h)
            · exact h
            · have := hB2gt x h
              omega
        simp [hiff]
      have hf2 : ((m.a.drop (an / 2 + 1)).take (an - an / 2 - 1)).filter
            (fun x => decide (x ∈ (m.b.drop bi).take (bn - bi)))
          = ((m.a.drop (an / 2 + 1)).take (an - an / 2 - 1)).filter
            (fun x => decide (x ∈ m.b.take bn)) := by
        apply List.filter_congr
        intro x hx
        have hxa : a < x := hA2gt x hx
        have hiff : (x ∈ (m.b.drop bi).take (bn - bi)) ↔ (x ∈ m.b.take bn) := by
          rw [hBdec]
          simp only [List.mem_append]
          constructor
          · intro h
            exact Or.inr h
          · rintro (h | h)
            · have := hB1lt x h
              omega
            · exact h
        simp [hiff]
      rw [hf1, hf2]
      simp [List.filter_cons, hnm]
    · rw [sumA_append]
      simp [sumA, hsa1, hsa2]
      omega
    · rw [sumB_append]
      simp [sumB, hsb1, hsb2]
      omega
    · intro n hn
      rcases List.mem_append.mp hn with h | h
      · exact hpa1 n h
      · rcases List.mem_cons.mp h with heq | h2
        · simp at heq
          omega
        · exact hpa2 n h2
    · intro n hn
      rcases List.mem_append.mp hn with h | h
      · exact hpb1 n h
      · rcases List.mem_cons.mp h with heq | h2
        · simp at heq
        · exact hpb2 n h2
  | case10 m an bn h0 h1 a hla hble =>
    intro halen hblen has hbs
    simp only [uRead] at hble
    omega

/-- An event block with no collision passes through `upToFirstColl` whole. -/
theorem upToFirstColl_append_nocoll (L T : List (MEvent κ)) (h : collKeys L = []) :
    upToFirstColl (L ++ T) = L ++ upToFirstColl T := by
  induction L with
  | nil => simp
  | cons e t IH =>
    cases e with
    | fromA n =>
      rw [collKeys_cons_fromA] at h
      simp [upToFirstColl, IH h]
    | fromB n =>
      rw [collKeys_cons_fromB] at h
      simp [upToFirstColl, IH h]
    | coll k =>
      rw [collKeys_cons_coll] at h
      simp at h

/-- An event block containing a collision decides `upToFirstColl` by itself. -/
theorem upToFirstColl_append_coll (L T : List (MEvent κ)) (h : collKeys L ≠ []) :
    upToFirstColl (L ++ T) = upToFirstColl L := by
  induction L with
  | nil => simp [collKeys] at h
  | cons e t IH =>
    cases e with
    | fromA n =>
      rw [collKeys_cons_fromA] at h
      simp [upToFirstColl, IH h]
    | fromB n =>
      rw [collKeys_cons_fromB] at h
      simp [upToFirstColl, IH h]
    | coll k =>
      simp [upToFirstColl]

set_option maxHeartbeats 1000000 in
/-- Simulation of the shortcut engine by the full engine for the union policy
with an aborting collision callback: over well-formed segments, the shortcut
run performs exactly the full run's callbacks up to and including the first
collision (all of them, with the same states, when no collision occurs), then
stops with the abort signal. -/
theorem smerge0_sim :
    ∀ (m : UState) an bn,
      an ≤ m.a.length → bn ≤ m.b.length →
      (m.a.take an).Pairwise (· < ·) → (m.b.take bn).Pairwise (· < ·) →
      ∀ mf, unionOp.merge0 uRead m an bn = some mf →
      ∃ T ms s,
        mf.evs = m.evs ++ T
        ∧ sUnionOp.merge0 uRead m an bn = some (ms, s)
        ∧ ms.evs = m.evs ++ upToFirstColl T
        ∧ (collKeys T = [] → ms = mf ∧ s = some ())
        ∧ (collKeys T ≠ [] → s = none) := by
  intro m an bn
  induction m, an, bn using MergeOperation.merge0.induct unionOp uRead with
  | case1 m bn hbn =>
    intro halen hblen has hbs mf hmf
    rw [merge0_nil_pos unionOp uRead m hbn] at hmf
    have hmf' : unionOp.from_b m bn = mf := Option.some.inj hmf
    refine ⟨[.fromB bn], unionOp.from_b m bn, some (), ?_, ?_, ?_, ?_, ?_⟩
    · rw [← hmf']
      simp [unionOp]
    · rw [smerge0_nil_pos sUnionOp uRead m hbn]
      rfl
    · simp [unionOp, upToFirstColl]
    · intro _
      exact ⟨hmf', rfl⟩
    · intro h
      simp [collKeys] at h
  | case2 m bn hbn =>
    intro halen hblen has hbs mf hmf
    have : bn = 0 := by omega
    subst this
    rw [merge0_nil_nil] at hmf
    have hmf' : m = mf := Option.some.inj hmf
    refine ⟨[], m, some (), ?_, ?_, ?_, ?_, ?_⟩
    · rw [← hmf']
      simp
    · rw [smerge0_nil_nil]
    · simp [upToFirstColl]
    · intro _
      exact ⟨hmf', rfl⟩
    · intro h
      simp [collKeys] at h
  | case3 m an h0 han =>
    intro halen hblen has hbs mf hmf
    rw [merge0_pos_nil unionOp uRead m han] at hmf
    have hmf' : unionOp.from_a m an = mf := Option.some.inj hmf
    refine ⟨[.fromA an], unionOp.from_a m an, some (), ?_, ?_, ?_, ?_, ?_⟩
    · rw [← hmf']
      simp [unionOp]
    · rw [smerge0_pos_nil sUnionOp uRead m han]
      rfl
    · simp [unionOp, upToFirstColl]
    · intro _
      exact ⟨hmf', rfl⟩
    · intro h
      simp [collKeys] at h
  | case4 m an h0 han =>
    omega
  | case5 m an bn h0 h1 hla =>
    intro halen hblen has hbs mf hmf
    rw [merge0_panic_a unionOp uRead m h0 h1 hla] at hmf
    simp at hmf
  | case6 m an bn h0 h1 a hla hble bm hsr hrec IH =>
    intro halen hblen has hbs mf hmf
    rw [merge0_ok unionOp uRead m h0 h1 hla hble hsr, hrec] at hmf
    simp at hmf
  | case8 m an bn h0 h1 a hla hble bi hsr hrec IH =>
    intro halen hblen has hbs mf hmf
    rw [merge0_err unionOp uRead m h0 h1 hla hble hsr, hrec] at hmf
    simp at hmf
  | case10 m an bn h0 h1 a hla hble =>
    intro halen hblen has hbs mf hmf
    simp only [uRead] at hble
    omega
  | case7 m an bn h0 h1 a hla hble bm hsr m1 hrec IH1 IH2 =>
    intro halen hblen has hbs mf hmf
    have hla' : m.a[an / 2]? = some a := by simpa [uRead] using hla
    have hble' : bn ≤ m.b.length := by simpa [uRead] using hble
    have hsr' : binary_search_by (fun b => (compare a b).swap) (m.b.take bn) = .ok bm := by
      simpa [unionOp, uRead] using hsr
    have hsrS : binary_search_by (fun b => (sUnionOp.cmp a b).swap)
        ((uRead.b_slice m).take bn) = .ok bm := by
      simpa [sUnionOp, uRead] using hsr'
    rw [List.getElem?_eq_some] at hla'
    obtain ⟨ham, haeq⟩ := hla'
    have hbm : bm < bn := by
      have := binary_search_by_ok_lt _ _ _ hsr'
      rw [List.length_take] at this
      omega
    have hsortA1 : (m.a.take (an / 2)).Pairwise (· < ·) := by
      rw [← take_take_eq m.a (an / 2) an (by omega)]
      exact List.Pairwise.sublist (List.take_sublist _ _) has
    have hsortB1 : (m.b.take bm).Pairwise (· < ·) := by
      rw [← take_take_eq m.b bm bn (by omega)]
      exact List.Pairwise.sublist (List.take_sublist _ _) hbs
    have hsplitA2 : (m.a.take an).drop (an / 2 + 1)
        = (m.a.drop (an / 2 + 1)).take (an - an / 2 - 1) := by
      rw [List.drop_take]
      have h3 : an - (an / 2 + 1) = an - an / 2 - 1 := by omega
      rw [h3]
    have hsplitB2 : (m.b.take bn).drop (bm + 1)
        = (m.b.drop (bm + 1)).take (bn - bm - 1) := by
      rw [List.drop_take]
      have h3 : bn - (bm + 1) = bn - bm - 1 := by omega
      rw [h3]
    obtain ⟨O1, T1, heq1, hrest1⟩ :=
      merge0_union_spec m (an / 2) bm (by omega) (by omega) hsortA1 hsortB1
    rw [heq1] at hrec
    have hm1 : m1 = ⟨m.a.drop (an / 2), m.b.drop bm, m.out ++ O1, m.evs ++ T1⟩ :=
      (Option.some.inj hrec).symm
    have hdropA : m.a.drop (an / 2) = a :: m.a.drop (an / 2 + 1) := by
      rw [← List.getElem_cons_drop m.a (an / 2) ham, haeq]
    have hcoll : unionOp.collision ⟨m.a.drop (an / 2), m.b.drop bm, m.out ++ O1, m.evs ++ T1⟩
        = ⟨m.a.drop (an / 2 + 1), m.b.drop (bm + 1), (m.out ++ O1) ++ [a],
           (m.evs ++ T1) ++ [.coll a]⟩ := by
      simp [unionOp, hdropA, List.drop_drop]
    obtain ⟨O2, T2, heq2, hrest2⟩ :=
      merge0_union_spec
        ⟨m.a.drop (an / 2 + 1), m.b.drop (bm + 1), (m.out ++ O1) ++ [a],
         (m.evs ++ T1) ++ [.coll a]⟩
        (an - an / 2 - 1) (bn - bm - 1)
        (by simp; omega) (by simp; omega)
        (by dsimp only
            rw [← hsplitA2]
            exact List.Pairwise.sublist (List.drop_sublist _ _) has)
        (by dsimp only
            rw [← hsplitB2]
            exact List.Pairwise.sublist (List.drop_sublist _ _) hbs)
    dsimp only at heq2
    have hmf' : mf = ⟨(m.a.drop (an / 2 + 1)).drop (an - an / 2 - 1),
        (m.b.drop (bm + 1)).drop (bn - bm - 1), ((m.out ++ O1) ++ [a]) ++ O2,
        ((m.evs ++ T1) ++ [.coll a]) ++ T2⟩ := by
      rw [merge0_ok unionOp uRead m h0 h1 hla hble hsr, heq1] at hmf
      simp only [Option.some_bind] at hmf
      rw [hcoll, heq2] at hmf
      exact (Option.some.inj hmf).symm
    obtain ⟨T1', ms1, s1, hT1e, hs1run, hs1evs, hs1cont, hs1abort⟩ :=
      IH1 (by omega) (by omega) hsortA1 hsortB1
        ⟨m.a.drop (an / 2), m.b.drop bm, m.out ++ O1, m.evs ++ T1⟩ heq1
    dsimp only at hT1e
    have hT1eq : T1' = T1 := (List.append_cancel_left hT1e).symm
    rw [hT1eq] at hs1evs hs1cont hs1abort
    by_cases hc1 : collKeys T1 = []
    · obtain ⟨hms1, hs1⟩ := hs1cont hc1
      rw [hms1, hs1] at hs1run
      have hcolS : sUnionOp.collision
          ⟨m.a.drop (an / 2), m.b.drop bm, m.out ++ O1, m.evs ++ T1⟩
          = (⟨m.a.drop (an / 2 + 1), m.b.drop (bm + 1), (m.out ++ O1) ++ [a],
             (m.evs ++ T1) ++ [.coll a]⟩, none) := by
        show (unionOp.collision _, none) = _
        rw [hcoll]
      refine ⟨T1 ++ .coll a :: T2,
        ⟨m.a.drop (an / 2 + 1), m.b.drop (bm + 1), (m.out ++ O1) ++ [a],
         (m.evs ++ T1) ++ [.coll a]⟩, none, ?_, ?_, ?_, ?_, ?_⟩
      · rw [hmf']
        simp [List.append_assoc]
      · exact smerge0_ok_abort2 sUnionOp uRead m h0 h1 hla hble hsrS hs1run hcolS
      · rw [upToFirstColl_append_nocoll T1 (.coll a :: T2) hc1]
        dsimp only
        simp [upToFirstColl, List.append_assoc]
      · intro hcT
        rw [collKeys_append, collKeys_cons_coll] at hcT
        simp at hcT
      · intro _
        rfl
    · have hs1' : s1 = none := hs1abort hc1
      rw [hs1'] at hs1run
      refine ⟨T1 ++ .coll a :: T2, ms1, none, ?_, ?_, ?_, ?_, ?_⟩
      · rw [hmf']
        simp [List.append_assoc]
      · exact smerge0_ok_abort1 sUnionOp uRead m h0 h1 hla hble hsrS hs1run
      · rw [upToFirstColl_append_coll T1 _ hc1]
        exact hs1evs
      · intro hcT
        rw [collKeys_append] at hcT
        rcases List.append_eq_nil.mp hcT with ⟨hc1', _⟩
        exact absurd hc1' hc1
      · intro _
        rfl
  | case9 m an bn h0 h1 a hla hble bi hsr m1 hrec IH1 IH2 =>
    intro halen hblen has hbs mf hmf
    have hla' : m.a[an / 2]? = some a := by simpa [uRead] using hla
    have hble' : bn ≤ m.b.length := by simpa [uRead] using hble
    have hsr' : binary_search_by (fun b => (compare a b).swap) (m.b.take bn) = .error bi := by
      simpa [unionOp, uRead] using hsr
    have hsrS : binary_search_by (fun b => (sUnionOp.cmp a b).swap)
        ((uRead.b_slice m).take bn) = .error bi := by
      simpa [sUnionOp, uRead] using hsr'
    rw [List.getElem?_eq_some] at hla'
    obtain ⟨ham, haeq⟩ := hla'
    have hbi : bi ≤ bn := by
      have := binary_search_by_err_le _ _ _ hsr'
      rw [List.length_take] at this
      omega
    have hsortA1 : (m.a.take (an / 2)).Pairwise (· < ·) := by
      rw [← take_take_eq m.a (an / 2) an (by omega)]
      exact List.Pairwise.sublist (List.take_sublist _ _) has
    have hsortB1 : (m.b.take bi).Pairwise (· < ·) := by
      rw [← take_take_eq m.b bi bn hbi]
      exact List.Pairwise.sublist (List.take_sublist _ _) hbs
    have hsplitA2 : (m.a.take an).drop (an / 2 + 1)
        = (m.a.drop (an / 2 + 1)).take (an - an / 2 - 1) := by
      rw [List.drop_take]
      have h3 : an - (an / 2 + 1) = an - an / 2 - 1 := by omega
      rw [h3]
    have hsplit2 : (m.b.take bn).drop bi = (m.b.drop bi).take (bn - bi) :=
      List.drop_take bn bi m.b
    obtain ⟨O1, T1, heq1, hrest1⟩ :=
      merge0_union_spec m (an / 2) bi (by omega) (by omega) hsortA1 hsortB1
    rw [heq1] at hrec
    have hm1 : m1 = ⟨m.a.drop (an / 2), m.b.drop bi, m.out ++ O1, m.evs ++ T1⟩ :=
      (Option.some.inj hrec).symm
    have hdropA : m.a.drop (an / 2) = a :: m.a.drop (an / 2 + 1) := by
      rw [← List.getElem_cons_drop m.a (an / 2) ham, haeq]
    have hfa : unionOp.from_a ⟨m.a.drop (an / 2), m.b.drop bi, m.out ++ O1, m.evs ++ T1⟩ 1
        = ⟨m.a.drop (an / 2 + 1), m.b.drop bi, (m.out ++ O1) ++ [a],
           (m.evs ++ T1) ++ [.fromA 1]⟩ := by
      simp [unionOp, hdropA]
    obtain ⟨O2, T2, heq2, hrest2⟩ :=
      merge0_union_spec
        ⟨m.a.drop (an / 2 + 1), m.b.drop bi, (m.out ++ O1) ++ [a],
         (m.evs ++ T1) ++ [.fromA 1]⟩
        (an - an / 2 - 1) (bn - bi)
        (by simp; omega) (by simp; omega)
        (by dsimp only
            rw [← hsplitA2]
            exact List.Pairwise.sublist (List.drop_sublist _ _) has)
        (by dsimp only
            rw [← hsplit2]
            exact List.Pairwise.sublist (List.drop_sublist _ _) hbs)
    dsimp only at heq2
    have hmf' : mf = ⟨(m.a.drop (an / 2 + 1)).drop (an - an / 2 - 1),
        (m.b.drop bi).drop (bn - bi), ((m.out ++ O1) ++ [a]) ++ O2,
        ((m.evs ++ T1) ++ [.fromA 1]) ++ T2⟩ := by
      rw [merge0_err unionOp uRead m h0 h1 hla hble hsr, heq1] at hmf
      simp only [Option.some_bind] at hmf
      rw [hfa, heq2] at hmf
      exact (Option.some.inj hmf).symm
    obtain ⟨T1', ms1, s1, hT1e, hs1run, hs1evs, hs1cont, hs1abort⟩ :=
      IH1 (by omega) (by omega) hsortA1 hsortB1
        ⟨m.a.drop (an / 2), m.b.drop bi, m.out ++ O1, m.evs ++ T1⟩ heq1
    dsimp only at hT1e
    have hT1eq : T1' = T1 := (List.append_cancel_left hT1e).symm
    rw [hT1eq] at hs1evs hs1cont hs1abort
    by_cases hc1 : collKeys T1 = []
    · obtain ⟨hms1, hs1⟩ := hs1cont hc1
      rw [hms1, hs1] at hs1run
      have hfaS : sUnionOp.from_a
          ⟨m.a.drop (an / 2), m.b.drop bi, m.out ++ O1, m.evs ++ T1⟩ 1
          = (⟨m.a.drop (an / 2 + 1), m.b.drop bi, (m.out ++ O1) ++ [a],
             (m.evs ++ T1) ++ [.fromA 1]⟩, some ()) := by
        show (unionOp.from_a _ 1, some ()) = _
        rw [hfa]
      rw [hm1, hfa] at IH2
      obtain ⟨T2', ms3, s3, hT2e, hs3run, hs3evs, hs3cont, hs3abort⟩ :=
        IH2 (by simp; omega) (by simp; omega)
          (by dsimp only
              rw [← hsplitA2]
              exact List.Pairwise.sublist (List.drop_sublist _ _) has)
          (by dsimp only
              rw [← hsplit2]
              exact List.Pairwise.sublist (List.drop_sublist _ _) hbs)
          ⟨(m.a.drop (an / 2 + 1)).drop (an - an / 2 - 1),
           (m.b.drop bi).drop (bn - bi), ((m.out ++ O1) ++ [a]) ++ O2,
           ((m.evs ++ T1) ++ [.fromA 1]) ++ T2⟩ heq2
      dsimp only at hT2e hs3evs
      have hT2eq : T2' = T2 := (List.append_cancel_left hT2e).symm
      rw [hT2eq] at hs3evs hs3cont hs3abort
      refine ⟨T1 ++ .fromA 1 :: T2, ms3, s3, ?_, ?_, ?_, ?_, ?_⟩
      · rw [hmf']
        simp [List.append_assoc]
      · rw [smerge0_err_cont sUnionOp uRead m h0 h1 hla hble hsrS hs1run hfaS]
        exact hs3run
      · rw [hs3evs]
        have hnc : collKeys (T1 ++ [MEvent.fromA 1]) = [] := by
          rw [collKeys_append, hc1, collKeys_cons_fromA]
          simp [collKeys]
        have hTshape : T1 ++ MEvent.coll 0 :: T2 = T1 ++ MEvent.coll 0 :: T2 := rfl
        have : T1 ++ MEvent.fromA 1 :: T2 = (T1 ++ [MEvent.fromA 1]) ++ T2 := by
          simp
        rw [this, upToFirstColl_append_nocoll _ _ hnc]
        simp [List.append_assoc]
      · intro hcT
        have hcT2 : collKeys T2 = [] := by
          rw [collKeys_append, hc1, collKeys_cons_fromA] at hcT
          simpa using hcT
        obtain ⟨hms3, hs3⟩ := hs3cont hcT2
        exact ⟨by rw [hms3, hmf'], hs3⟩
      · intro hcT
        have hcT2 : collKeys T2 ≠ [] := by
          rw [collKeys_append, hc1, collKeys_cons_fromA] at hcT
          simpa using hcT
        exact hs3abort hcT2
    · have hs1' : s1 = none := hs1abort hc1
      rw [hs1'] at hs1run
      refine ⟨T1 ++ .fromA 1 :: T2, ms1, none, ?_, ?_, ?_, ?_, ?_⟩
      · rw [hmf']
        simp [List.append_assoc]
      · exact smerge0_err_abort1 sUnionOp uRead m h0 h1 hla hble hsrS hs1run
      · rw [upToFirstColl_append_coll T1 (MEvent.fromA 1 :: T2) hc1]
        exact hs1evs
      · intro hcT
        rw [collKeys_append] at hcT
        rcases List.append_eq_nil.mp hcT with ⟨hc1', _⟩
        exact absurd hc1' hc1
      · intro _
        rfl

/-- The engine never mutates the state on its own: with callbacks that do
nothing, a completed run returns the state unchanged. -/
theorem merge0_idOp (c : α → β → Ordering) (R : MergeStateRead σ α β) :
    ∀ (m : σ) an bn m', (idOp c).merge0 R m an bn = some m' → m' = m := by
  intro m an bn
  induction m, an, bn using MergeOperation.merge0.induct (idOp c) R with
  | case1 m bn hbn =>
    intro m' h
    rw [merge0_nil_pos _ R m hbn] at h
    exact (Option.some.inj h).symm
  | case2 m bn hbn =>
    intro m' h
    have hbn0 : bn = 0 := by omega
    subst hbn0
    rw [merge0_nil_nil] at h
    exact (Option.some.inj h).symm
  | case3 m an h0 han =>
    intro m' h
    rw [merge0_pos_nil _ R m han] at h
    exact (Option.some.inj h).symm
  | case4 m an h0 han =>
    omega
  | case5 m an bn h0 h1 hla =>
    intro m' h
    rw [merge0_panic_a _ R m h0 h1 hla] at h
    simp at h
  | case6 m an bn h0 h1 a hla hble bm hsr hrec IH =>
    intro m' h
    rw [merge0_ok _ R m h0 h1 hla hble hsr, hrec] at h
    simp at h
  | case7 m an bn h0 h1 a hla hble bm hsr m1 hrec IH1 IH2 =>
    intro m' h
    rw [merge0_ok _ R m h0 h1 hla hble hsr, hrec] at h
    simp only [Option.some_bind] at h
    have h2 := IH2 m' h
    have h1 := IH1 m1 hrec
    rw [h2, h1]
    simp [idOp]
  | case8 m an bn h0 h1 a hla hble bi hsr hrec IH =>
    intro m' h
    rw [merge0_err _ R m h0 h1 hla hble hsr, hrec] at h
    simp at h
  | case9 m an bn h0 h1 a hla hble bi hsr m1 hrec IH1 IH2 =>
    intro m' h
    rw [merge0_err _ R m h0 h1 hla hble hsr, hrec] at h
    simp only [Option.some_bind] at h
    have h2 := IH2 m' h
    have h1 := IH1 m1 hrec
    rw [h2, h1]
    simp [idOp]
  | case10 m an bn h0 h1 a hla hble =>
    intro m' h
    rw [merge0_panic_b _ R m h0 h1 hla hble] at h
    simp at h

/-- The a-side consumption of a trace is at least its number of collisions. -/
theorem collKeys_length_le_sumA (T : List (MEvent κ)) : (collKeys T).length ≤ sumA T := by
  induction T with
  | nil => simp [collKeys, sumA]
  | cons e t IH =>
    cases e with
    | fromA n =>
      rw [collKeys_cons_fromA]
      simp [sumA]
      omega
    | fromB n =>
      rw [collKeys_cons_fromB]
      simp [sumA]
      omega
    | coll k =>
      rw [collKeys_cons_coll]
      simp [sumA]
      omega

/-- The b-side consumption of a trace is at least its number of collisions. -/
theorem collKeys_length_le_sumB (T : List (MEvent κ)) : (collKeys T).length ≤ sumB T := by
  induction T with
  | nil => simp [collKeys, sumB]
  | cons e t IH =>
    cases e with
    | fromA n =>
      rw [collKeys_cons_fromA]
      simp [sumB]
      omega
    | fromB n =>
      rw [collKeys_cons_fromB]
      simp [sumB]
      omega
    | coll k =>
      rw [collKeys_cons_coll]
      simp [sumB]
      omega

/-- A trace whose both-side consumptions equal its number of collisions, and
whose `from_a`/`from_b` events all carry positive counts, consists of collision
events only. -/
theorem trace_eq_map_coll (T : List (MEvent Nat))
    (hsa : sumA T = (collKeys T).length) (hsb : sumB T = (collKeys T).length)
    (hpa : ∀ n, MEvent.fromA n ∈ T → 0 < n) (hpb : ∀ n, MEvent.fromB n ∈ T → 0 < n) :
    T = (collKeys T).map MEvent.coll := by
  induction T with
  | nil => simp [collKeys]
  | cons e t IH =>
    cases e with
    | fromA n =>
      exfalso
      have hn : 0 < n := hpa n (by simp)
      rw [collKeys_cons_fromA] at hsa
      have := collKeys_length_le_sumA t
      simp [sumA] at hsa
      omega
    | fromB n =>
      exfalso
      have hn : 0 < n := hpb n (by simp)
      rw [collKeys_cons_fromB] at hsb
      have := collKeys_length_le_sumB t
      simp [sumB] at hsb
      omega
    | coll k =>
      rw [collKeys_cons_coll]
      rw [collKeys_cons_coll] at hsa hsb
      simp [sumA] at hsa
      simp [sumB] at hsb
      simp only [List.map_cons]
      congr 1
      exact IH (by omega) (by omega) (fun n hn => hpa n (by simp [hn])) (fun n hn => hpb n (by simp [hn]))

/-- C1: for every pair of ascending, self-duplicate-free sequences A and B over
the shared order on naturals, running `MergeOperation.merge` with the union
policy (`from_a`/`from_b` record the indicated elements, `collision` records
the shared key once) produces in the accumulator the sorted sequence of all
keys of A and B with each key appearing exactly once, and the collision
callback is invoked exactly once per key present in both A and B: its logged
invocations are exactly the shared keys, each once, in order. -/
theorem C1_union_merge (A B : List Nat)
    (hA : A.Pairwise (· < ·)) (hB : B.Pairwise (· < ·)) :
    ∃ m', unionOp.merge uRead ⟨A, B, [], []⟩ = some m'
      ∧ m'.out.Pairwise (· < ·)
      ∧ (∀ x, x ∈ m'.out ↔ x ∈ A ∨ x ∈ B)
      ∧ collKeys m'.evs = A.filter (fun x => decide (x ∈ B)) := by
  obtain ⟨O, T, heq, hsort, hmem, hkeys, hsa, hsb, hpa, hpb⟩ :=
    merge0_union_spec ⟨A, B, [], []⟩ A.length B.length (by simp) (by simp)
      (by simpa using hA) (by simpa using hB)
  dsimp only at heq hsort hmem hkeys
  rw [List.drop_length, List.drop_length, List.nil_append, List.nil_append] at heq
  refine ⟨⟨[], [], O, T⟩, ?_, hsort, ?_, ?_⟩
  · rw [MergeOperation.merge]
    exact heq
  · intro x
    have := hmem x
    rw [List.take_length, List.take_length] at this
    exact this
  · rw [List.take_length, List.take_length] at hkeys
    exact hkeys

/-- Witness for C1 at the spec's concrete scenario. -/
theorem C1_union_merge_witness :
    (([1, 3, 5, 7] : List Nat).Pairwise (· < ·) ∧ ([3, 4, 5, 9] : List Nat).Pairwise (· < ·))
    ∧ ∃ m', unionOp.merge uRead ⟨[1, 3, 5, 7], [3, 4, 5, 9], [], []⟩ = some m'
      ∧ m'.out.Pairwise (· < ·)
      ∧ (∀ x, x ∈ m'.out ↔ x ∈ ([1, 3, 5, 7] : List Nat) ∨ x ∈ ([3, 4, 5, 9] : List Nat))
      ∧ collKeys m'.evs = ([1, 3, 5, 7] : List Nat).filter
          (fun x => decide (x ∈ ([3, 4, 5, 9] : List Nat))) :=
  ⟨⟨by decide, by decide⟩, C1_union_merge [1, 3, 5, 7] [3, 4, 5, 9] (by decide) (by decide)⟩

/-- C7: merging an ascending duplicate-free sequence A against itself under the
union policy invokes the collision callback exactly once per element of A, in
order, and never invokes `from_a` or `from_b`: the logged callback events of
the whole run are exactly one collision per element of A. -/
theorem C7_self_merge (A : List Nat) (hA : A.Pairwise (· < ·)) :
    ∃ m', unionOp.merge uRead ⟨A, A, [], []⟩ = some m'
      ∧ m'.evs = A.map MEvent.coll := by
  obtain ⟨O, T, heq, hsort, hmem, hkeys, hsa, hsb, hpa, hpb⟩ :=
    merge0_union_spec ⟨A, A, [], []⟩ A.length A.length (by simp) (by simp)
      (by simpa using hA) (by simpa using hA)
  dsimp only at heq hkeys
  rw [List.drop_length, List.nil_append, List.nil_append] at heq
  rw [List.take_length] at hkeys
  have hfilt : A.filter (fun x => decide (x ∈ A)) = A :=
    List.filter_eq_self.mpr (fun x hx => by simp [hx])
  rw [hfilt] at hkeys
  have hT : T = A.map MEvent.coll := by
    have h1 := trace_eq_map_coll T (by rw [hsa, hkeys]) (by rw [hsb, hkeys]) hpa hpb
    rw [hkeys] at h1
    exact h1
  refine ⟨⟨[], [], O, T⟩, ?_, hT⟩
  rw [MergeOperation.merge]
  exact heq

/-- Witness for C7 on a two-element sequence. -/
theorem C7_self_merge_witness :
    (([2, 4] : List Nat).Pairwise (· < ·))
    ∧ ∃ m', unionOp.merge uRead ⟨[2, 4], [2, 4], [], []⟩ = some m'
      ∧ m'.evs = ([2, 4] : List Nat).map MEvent.coll :=
  ⟨by decide, C7_self_merge [2, 4] (by decide)⟩

/-- C2: the full engine's control paths.  With no elements on either side there
is no callback and the state is unchanged; with only b elements left there is
exactly one `from_b bn` call; with only a elements left exactly one
`from_a an` call; otherwise the engine takes the pivot `a_slice[an / 2]`,
binary-searches it among the first `bn` elements of the b view with the
reversed comparator, and on a hit at `bm` runs the prefix recursion
`(an / 2, bm)`, one `collision`, then the suffix recursion
`(an - an / 2 - 1, bn - bm - 1)`, in that order (data flows left to right
through the bind); on a miss with insertion point `bi` it runs the prefix
recursion `(an / 2, bi)`, one `from_a 1`, then the suffix recursion
`(an - an / 2 - 1, bn - bi)`. -/
theorem C2_merge0_paths : ∀ (σ α β : Type) (op : MergeOperation σ α β)
    (R : MergeStateRead σ α β) (m : σ) (an bn : Nat) (a : α) (bm bi : Nat),
    (op.merge0 R m 0 0 = some m)
    ∧ (0 < bn → op.merge0 R m 0 bn = some (op.from_b m bn))
    ∧ (0 < an → op.merge0 R m an 0 = some (op.from_a m an))
    ∧ (an ≠ 0 → bn ≠ 0 → (R.a_slice m)[an / 2]? = some a →
        bn ≤ (R.b_slice m).length →
        binary_search_by (fun b => (op.cmp a b).swap) ((R.b_slice m).take bn) = .ok bm →
        op.merge0 R m an bn
          = (op.merge0 R m (an / 2) bm).bind
              (fun m1 => op.merge0 R (op.collision m1) (an - an / 2 - 1) (bn - bm - 1)))
    ∧ (an ≠ 0 → bn ≠ 0 → (R.a_slice m)[an / 2]? = some a →
        bn ≤ (R.b_slice m).length →
        binary_search_by (fun b => (op.cmp a b).swap) ((R.b_slice m).take bn) = .error bi →
        op.merge0 R m an bn
          = (op.merge0 R m (an / 2) bi).bind
              (fun m1 => op.merge0 R (op.from_a m1 1) (an - an / 2 - 1) (bn - bi))) :=
  fun σ α β op R m an bn a bm bi =>
    ⟨merge0_nil_nil op R m,
     fun h => merge0_nil_pos op R m h,
     fun h => merge0_pos_nil op R m h,
     fun h0 h1 ha hb hs => merge0_ok op R m h0 h1 ha hb hs,
     fun h0 h1 ha hb hs => merge0_err op R m h0 h1 ha hb hs⟩

/-- Witness for C2 on the empty-a path. -/
theorem C2_merge0_paths_witness :
    unionOp.merge0 uRead ⟨[1], [2, 3], [], []⟩ 0 2
      = some (unionOp.from_b ⟨[1], [2, 3], [], []⟩ 2) :=
  (C2_merge0_paths UState Nat Nat unionOp uRead ⟨[1], [2, 3], [], []⟩ 0 2 0 0 0).2.1
    (by decide)

/-- C3: abort propagation in the shortcut engine.  Every `?` point is covered:
when a prefix recursion, the `collision`/`from_a 1` callback, or any sub-call
returns the abort signal, the enclosing `merge0` returns exactly that state
with the abort signal — no later callback or recursion of the arm runs, since
the returned state is precisely the state at the abort point — and the signal
propagates unchanged through every enclosing frame by the same equations;
`ShortcutMergeOperation.merge` discards the final signal and returns only the
state. -/
theorem C3_shortcut_propagation : ∀ (σ α β : Type) (op : ShortcutMergeOperation σ α β)
    (R : MergeStateRead σ α β) (m m1 m2 : σ) (an bn : Nat) (a : α) (bm bi : Nat)
    (u u' : Unit),
    (op.merge0 R m 0 0 = some (m, some ()))
    ∧ (0 < bn → op.merge0 R m 0 bn = some (op.from_b m bn))
    ∧ (0 < an → op.merge0 R m an 0 = some (op.from_a m an))
    ∧ (an ≠ 0 → bn ≠ 0 → (R.a_slice m)[an / 2]? = some a →
        bn ≤ (R.b_slice m).length →
        binary_search_by (fun b => (op.cmp a b).swap) ((R.b_slice m).take bn) = .ok bm →
        (op.merge0 R m (an / 2) bm = some (m1, none) →
          op.merge0 R m an bn = some (m1, none))
        ∧ (op.merge0 R m (an / 2) bm = some (m1, some u) → op.collision m1 = (m2, none) →
          op.merge0 R m an bn = some (m2, none))
        ∧ (op.merge0 R m (an / 2) bm = some (m1, some u) → op.collision m1 = (m2, some u') →
          op.merge0 R m an bn = op.merge0 R m2 (an - an / 2 - 1) (bn - bm - 1)))
    ∧ (an ≠ 0 → bn ≠ 0 → (R.a_slice m)[an / 2]? = some a →
        bn ≤ (R.b_slice m).length →
        binary_search_by (fun b => (op.cmp a b).swap) ((R.b_slice m).take bn) = .error bi →
        (op.merge0 R m (an / 2) bi = some (m1, none) →
          op.merge0 R m an bn = some (m1, none))
        ∧ (op.merge0 R m (an / 2) bi = some (m1, some u) → op.from_a m1 1 = (m2, none) →
          op.merge0 R m an bn = some (m2, none))
        ∧ (op.merge0 R m (an / 2) bi = some (m1, some u) → op.from_a m1 1 = (m2, some u') →
          op.merge0 R m an bn = op.merge0 R m2 (an - an / 2 - 1) (bn - bi)))
    ∧ (op.merge R m
        = (op.merge0 R m (R.a_slice m).length (R.b_slice m).length).map Prod.fst) :=
  fun σ α β op R m m1 m2 an bn a bm bi u u' =>
    ⟨smerge0_nil_nil op R m,
     fun h => smerge0_nil_pos op R m h,
     fun h => smerge0_pos_nil op R m h,
     fun h0 h1 ha hb hs =>
       ⟨fun hr => smerge0_ok_abort1 op R m h0 h1 ha hb hs hr,
        fun hr hc => smerge0_ok_abort2 op R m h0 h1 ha hb hs hr hc,
        fun hr hc => smerge0_ok_cont op R m h0 h1 ha hb hs hr hc⟩,
     fun h0 h1 ha hb hs =>
       ⟨fun hr => smerge0_err_abort1 op R m h0 h1 ha hb hs hr,
        fun hr hc => smerge0_err_abort2 op R m h0 h1 ha hb hs hr hc,
        fun hr hc => smerge0_err_cont op R m h0 h1 ha hb hs hr hc⟩,
     rfl⟩

/-- Witness for C3 on the abort-propagating empty-a path. -/
theorem C3_shortcut_propagation_witness :
    sUnionOp.merge0 uRead ⟨[1], [2, 3], [], []⟩ 0 2
      = some (sUnionOp.from_b ⟨[1], [2, 3], [], []⟩ 2) :=
  (C3_shortcut_propagation UState Nat Nat sUnionOp uRead ⟨[1], [2, 3], [], []⟩
    ⟨[], [], [], []⟩ ⟨[], [], [], []⟩ 0 2 0 0 0 () ()).2.1 (by decide)

/-- C4 counterexample: the engine does not advance the views itself.  With
callbacks that leave the state untouched, `merge` over views `([0], [])`
performs exactly one `from_a 1` call (second conjunct: the run's value is
precisely that single callback application) and returns with the a view still
`[0]`, not advanced by 1 — had the engine advanced the a view by `n` after
`from_a` returned, the final remaining view would have been `[]`. -/
theorem C4_counterexample :
    MergeOperation.merge (idOp (compare : Nat → Nat → Ordering)) pairRead (([0], []) : List Nat × List Nat)
      = some ([0], [])
    ∧ MergeOperation.merge0 (idOp (compare : Nat → Nat → Ordering)) pairRead (([0], []) : List Nat × List Nat) 1 0
      = some ((idOp (compare : Nat → Nat → Ordering)).from_a (([0], []) : List Nat × List Nat) 1)
    ∧ pairRead.a_slice (([0], []) : List Nat × List Nat)
      ≠ (pairRead.a_slice (([0], []) : List Nat × List Nat)).drop 1 := by
  refine ⟨?_, ?_, by decide⟩
  · rw [MergeOperation.merge]
    exact merge0_pos_nil (idOp (compare : Nat → Nat → Ordering)) pairRead ([0], []) (by decide)
  · exact merge0_pos_nil (idOp (compare : Nat → Nat → Ordering)) pairRead ([0], []) (by decide)

/-- C4 amended: the engine itself never mutates the state — view advancement
(and all recording) happens only inside the operation's callbacks.  With
callbacks that do nothing, every completed run returns the state, and hence
both views, unchanged. -/
theorem C4_engine_never_advances : ∀ (σ α β : Type) (c : α → β → Ordering)
    (R : MergeStateRead σ α β) (m : σ) (an bn : Nat) (m' : σ),
    (idOp c).merge0 R m an bn = some m' → m' = m :=
  fun σ α β c R m an bn m' h => merge0_idOp c R m an bn m' h

/-- Witness for the amended C4. -/
theorem C4_engine_never_advances_witness :
    (idOp (compare : Nat → Nat → Ordering)).merge0 pairRead (([5], []) : List Nat × List Nat) 1 0
      = some (([5], []) : List Nat × List Nat)
    ∧ (([5], []) : List Nat × List Nat) = ([5], []) := by
  have h : (idOp (compare : Nat → Nat → Ordering)).merge0 pairRead (([5], []) : List Nat × List Nat) 1 0
      = some (([5], []) : List Nat × List Nat) :=
    merge0_pos_nil (idOp (compare : Nat → Nat → Ordering)) pairRead ([5], []) (by decide)
  exact ⟨h, C4_engine_never_advances (List Nat × List Nat) Nat Nat (compare : Nat → Nat → Ordering) pairRead
    ([5], []) 1 0 ([5], []) h⟩

/-- C5: callback accounting of the full engine.  The ghost-instrumented engine
runs in lockstep with the plain engine (first components coincide, panics
included), and every completed call `merge0 an bn` logs an event block whose
a-side consumption — the sum of the `from_a` arguments plus the number of
collision calls — is exactly `an`, and whose b-side consumption — the sum of
the `from_b` arguments plus the number of collision calls — is exactly `bn`,
the events listed in invocation order. -/
theorem C5_consumption_sums : ∀ (σ α β : Type) (op : MergeOperation σ α β)
    (R : MergeStateRead σ α β) (m : σ) (evs0 : List (MEvent Unit)) (an bn : Nat),
    (((instrument op).merge0 (instrumentRead R) (m, evs0) an bn).map Prod.fst
      = op.merge0 R m an bn)
    ∧ (∀ p', (instrument op).merge0 (instrumentRead R) (m, evs0) an bn = some p' →
        ∃ T, p'.2 = evs0 ++ T ∧ sumA T = an ∧ sumB T = bn) :=
  fun σ α β op R m evs0 an bn =>
    ⟨merge0_instr_fst op R (m, evs0) an bn,
     fun p' h => merge0_instr_trace op R (m, evs0) an bn p' h⟩

/-- Witness for C5 on the empty-a path. -/
theorem C5_consumption_sums_witness :
    ((instrument unionOp).merge0 (instrumentRead uRead) (⟨[1], [2, 3], [], []⟩, []) 0 2
      = some ((instrument unionOp).from_b (⟨[1], [2, 3], [], []⟩, []) 2))
    ∧ ∃ T, ((instrument unionOp).from_b ((⟨[1], [2, 3], [], []⟩ : UState), ([] : List (MEvent Unit))) 2).2 = [] ++ T
        ∧ sumA T = 0 ∧ sumB T = 2 := by
  have h : (instrument unionOp).merge0 (instrumentRead uRead) (⟨[1], [2, 3], [], []⟩, []) 0 2
      = some ((instrument unionOp).from_b (⟨[1], [2, 3], [], []⟩, []) 2) :=
    merge0_nil_pos (instrument unionOp) (instrumentRead uRead) _ (by decide)
  exact ⟨h, (C5_consumption_sums UState Nat Nat unionOp uRead ⟨[1], [2, 3], [], []⟩ [] 0 2).2
    _ h⟩

/-- C6: termination of both engines.  In the recursive arm both recursive calls
pass a first length argument strictly below `an` (`an / 2 < an` and
`an - an / 2 - 1 < an` whenever both segments are nonempty), so the recursion
depth is bounded by `an`: the structurally fuel-indexed engines agree with the
recursive ones as soon as the fuel exceeds `an`, for the full and the
short-circuit variant alike. -/
theorem C6_termination : ∀ (σ α β : Type) (op : MergeOperation σ α β)
    (sop : ShortcutMergeOperation σ α β) (R : MergeStateRead σ α β)
    (m m' : σ) (an bn fuel : Nat),
    (0 < an → 0 < bn → an / 2 < an ∧ an - an / 2 - 1 < an)
    ∧ (an < fuel → merge0F op R fuel m an bn = op.merge0 R m an bn)
    ∧ (an < fuel → smerge0F sop R fuel m' an bn = sop.merge0 R m' an bn) :=
  fun σ α β op sop R m m' an bn fuel =>
    ⟨fun ha _ => ⟨by omega, by omega⟩,
     fun hf => merge0F_eq op R fuel an m bn hf,
     fun hf => smerge0F_eq sop R fuel an m' bn hf⟩

/-- Witness for C6 at `an = 5`, fuel 6. -/
theorem C6_termination_witness :
    (5 / 2 < 5 ∧ 5 - 5 / 2 - 1 < 5)
    ∧ merge0F unionOp uRead 6 ⟨[1, 2, 3, 4, 5], [2, 4], [], []⟩ 5 2
        = unionOp.merge0 uRead ⟨[1, 2, 3, 4, 5], [2, 4], [], []⟩ 5 2
    ∧ smerge0F sUnionOp uRead 6 ⟨[1, 2, 3, 4, 5], [2, 4], [], []⟩ 5 2
        = sUnionOp.merge0 uRead ⟨[1, 2, 3, 4, 5], [2, 4], [], []⟩ 5 2 :=
  ⟨(C6_termination UState Nat Nat unionOp sUnionOp uRead ⟨[1, 2, 3, 4, 5], [2, 4], [], []⟩
      ⟨[1, 2, 3, 4, 5], [2, 4], [], []⟩ 5 2 6).1 (by decide) (by decide),
   (C6_termination UState Nat Nat unionOp sUnionOp uRead ⟨[1, 2, 3, 4, 5], [2, 4], [], []⟩
      ⟨[1, 2, 3, 4, 5], [2, 4], [], []⟩ 5 2 6).2.1 (by decide),
   (C6_termination UState Nat Nat unionOp sUnionOp uRead ⟨[1, 2, 3, 4, 5], [2, 4], [], []⟩
      ⟨[1, 2, 3, 4, 5], [2, 4], [], []⟩ 5 2 6).2.2 (by decide)⟩

/-- C8: refinement of the full engine by the short-circuit engine.  Over
ascending duplicate-free inputs sharing at least one key, the shortcut union
operation (identical state transformations, collision returns abort-now)
performs exactly the same callback invocations, in the same order with the same
arguments and states, as the full union engine up to and including the first
collision, and performs no callback after it; `ShortcutMergeOperation.merge`
discards the final abort signal. -/
theorem C8_shortcut_first_collision (A B : List Nat)
    (hA : A.Pairwise (· < ·)) (hB : B.Pairwise (· < ·))
    (hshared : ∃ k, k ∈ A ∧ k ∈ B) :
    ∃ mf ms, unionOp.merge uRead ⟨A, B, [], []⟩ = some mf
      ∧ sUnionOp.merge uRead ⟨A, B, [], []⟩ = some ms
      ∧ ms.evs = upToFirstColl mf.evs
      ∧ collKeys mf.evs ≠ [] := by
  obtain ⟨O, T, heq, hsort, hmem, hkeys, hsa, hsb, hpa, hpb⟩ :=
    merge0_union_spec ⟨A, B, [], []⟩ A.length B.length (by simp) (by simp)
      (by simpa using hA) (by simpa using hB)
  dsimp only at heq hkeys
  obtain ⟨T', ms, s, hTe, hsrun, hsevs, hscont, hsabort⟩ :=
    smerge0_sim ⟨A, B, [], []⟩ A.length B.length (by simp) (by simp)
      (by simpa using hA) (by simpa using hB) _ heq
  dsimp only at hTe hsevs
  simp only [List.nil_append] at hTe hsevs
  refine ⟨⟨A.drop A.length, B.drop B.length, [] ++ O, [] ++ T⟩, ms, ?_, ?_, ?_, ?_⟩
  · rw [MergeOperation.merge]
    exact heq
  · show (sUnionOp.merge0 uRead ⟨A, B, [], []⟩ A.length B.length).map Prod.fst = some ms
    rw [hsrun]
    rfl
  · dsimp only [List.nil_append]
    rw [hsevs, ← hTe]
  · dsimp only [List.nil_append]
    rw [hkeys, List.take_length, List.take_length]
    obtain ⟨k, hkA, hkB⟩ := hshared
    intro hnil
    have hkmem : k ∈ A.filter (fun x => decide (x ∈ B)) := by
      rw [List.mem_filter]
      exact ⟨hkA, by simpa using hkB⟩
    rw [hnil] at hkmem
    simp at hkmem
/-- Witness for C8 on inputs sharing the key 3. -/
theorem C8_shortcut_first_collision_witness :
    (([1, 3] : List Nat).Pairwise (· < ·) ∧ ([3, 4] : List Nat).Pairwise (· < ·)
      ∧ (3 : Nat) ∈ ([1, 3] : List Nat) ∧ (3 : Nat) ∈ ([3, 4] : List Nat))
    ∧ ∃ mf ms, unionOp.merge uRead ⟨[1, 3], [3, 4], [], []⟩ = some mf
      ∧ sUnionOp.merge uRead ⟨[1, 3], [3, 4], [], []⟩ = some ms
      ∧ ms.evs = upToFirstColl mf.evs
      ∧ collKeys mf.evs ≠ [] :=
  ⟨⟨by decide, by decide, by decide, by decide⟩,
   C8_shortcut_first_collision [1, 3] [3, 4] (by decide) (by decide)
     ⟨3, by decide, by decide⟩⟩

/-- C9: the engine cannot fail on well-formed input.  For any operation whose
callbacks shrink each view by exactly the number of elements the engine reports
consumed, every call with segment lengths within the views returns `some`
(both panic points — the pivot index `a_slice()[am]` and the sub-slice
`b_slice()[..bn]` — stay in bounds through every nested recursive call) and
consumes the segments exactly; in particular the public entry point `merge`
always succeeds and consumes both views completely. -/
theorem C9_engine_never_fails : ∀ (σ α β : Type) (op : MergeOperation σ α β)
    (R : MergeStateRead σ α β), Consumes op R →
    (∀ (m : σ) an bn, an ≤ (R.a_slice m).length → bn ≤ (R.b_slice m).length →
      ∃ m', op.merge0 R m an bn = some m'
        ∧ R.a_slice m' = (R.a_slice m).drop an
        ∧ R.b_slice m' = (R.b_slice m).drop bn)
    ∧ (∀ m : σ, ∃ m', op.merge R m = some m'
        ∧ R.a_slice m' = [] ∧ R.b_slice m' = []) := by
  intro σ α β op R hc
  refine ⟨fun m an bn ha hb => merge0_consumes op R hc m an bn ha hb, fun m => ?_⟩
  obtain ⟨m', hm', ha', hb'⟩ :=
    merge0_consumes op R hc m (R.a_slice m).length (R.b_slice m).length
      (Nat.le_refl _) (Nat.le_refl _)
  refine ⟨m', ?_, ?_, ?_⟩
  · rw [MergeOperation.merge]
    exact hm'
  · rw [ha', List.drop_length]
  · rw [hb', List.drop_length]

/-- Witness for C9 with the union operation on concrete views. -/
theorem C9_engine_never_fails_witness :
    Consumes unionOp uRead
    ∧ ∃ m', unionOp.merge uRead ⟨[1], [2], [], []⟩ = some m'
        ∧ uRead.a_slice m' = [] ∧ uRead.b_slice m' = [] := by
  have hc : Consumes unionOp uRead := by
    refine ⟨fun m n => ⟨rfl, rfl⟩, fun m n => ⟨rfl, rfl⟩, fun m => ⟨rfl, rfl⟩⟩
  exact ⟨hc, (C9_engine_never_fails UState Nat Nat unionOp uRead hc).2 ⟨[1], [2], [], []⟩⟩

/-- The instrumented shortcut engine runs in lockstep with the plain shortcut
engine: stripping the ghost log from its results gives exactly the plain run,
states, signals and panics included. -/
theorem smerge0_sinstr_proj (op : ShortcutMergeOperation σ α β) (R : MergeStateRead σ α β) :
    ∀ (p : σ × List (SEvent σ)) an bn,
      ((sinstrument op).merge0 (sinstrumentRead R) p an bn).map (fun r => (r.1.1, r.2))
        = op.merge0 R p.1 an bn := by
  intro p an bn
  induction p, an, bn
    using ShortcutMergeOperation.merge0.induct (sinstrument op) (sinstrumentRead R) with
  | case1 p bn hbn =>
    rw [smerge0_nil_pos _ _ p hbn, smerge0_nil_pos op R p.1 hbn]
    simp [sinstrument]
  | case2 p bn hbn =>
    have hbn0 : bn = 0 := by omega
    subst hbn0
    rw [smerge0_nil_nil, smerge0_nil_nil]
    simp
  | case3 p an h0 han =>
    rw [smerge0_pos_nil _ _ p han, smerge0_pos_nil op R p.1 han]
    simp [sinstrument]
  | case4 p an h0 han =>
    omega
  | case5 p an bn h0 h1 hla =>
    rw [smerge0_panic_a _ _ p h0 h1 hla,
      smerge0_panic_a op R p.1 h0 h1 (by simpa [sinstrumentRead] using hla)]
    simp
  | case6 p an bn h0 h1 a hla hble bm hsr hrec IH =>
    rw [smerge0_ok_panic _ _ p h0 h1 hla hble hsr hrec]
    rw [hrec] at IH
    simp at IH
    rw [smerge0_ok_panic op R p.1 h0 h1 (by simpa [sinstrumentRead] using hla)
      (by simpa [sinstrumentRead] using hble)
      (by simpa [sinstrument, sinstrumentRead] using hsr) IH.symm]
    simp
  | case7 p an bn h0 h1 a hla hble bm hsr p1 hrec IH =>
    rw [smerge0_ok_abort1 _ _ p h0 h1 hla hble hsr hrec]
    rw [hrec] at IH
    simp at IH
    rw [smerge0_ok_abort1 op R p.1 h0 h1 (by simpa [sinstrumentRead] using hla)
      (by simpa [sinstrumentRead] using hble)
      (by simpa [sinstrument, sinstrumentRead] using hsr) IH.symm]
    simp
  | case8 p an bn h0 h1 a hla hble bm hsr p1 u hrec p2 hcol IH =>
    rcases hc : op.collision p1.1 with ⟨c1, c2⟩
    have hcol2 : p2 = (c1, p1.2 ++ [SEvent.coll p1.1]) ∧ c2 = none := by
      have h := hcol
      simp [sinstrument, hc] at h
      exact ⟨h.1.symm, h.2⟩
    rw [smerge0_ok_abort2 _ _ p h0 h1 hla hble hsr hrec hcol]
    rw [hrec] at IH
    simp at IH
    rw [smerge0_ok_abort2 op R p.1 h0 h1 (by simpa [sinstrumentRead] using hla)
      (by simpa [sinstrumentRead] using hble)
      (by simpa [sinstrument, sinstrumentRead] using hsr) IH.symm
      (by rw [hc, hcol2.2])]
    rw [hcol2.1]
    rfl
  | case9 p an bn h0 h1 a hla hble bm hsr p1 u hrec p2 u2 hcol IH1 IH2 =>
    rcases hc : op.collision p1.1 with ⟨c1, c2⟩
    have hcol2 : p2 = (c1, p1.2 ++ [SEvent.coll p1.1]) ∧ c2 = some u2 := by
      have h := hcol
      simp [sinstrument, hc] at h
      exact ⟨h.1.symm, h.2⟩
    rw [smerge0_ok_cont _ _ p h0 h1 hla hble hsr hrec hcol]
    rw [hrec] at IH1
    simp at IH1
    rw [smerge0_ok_cont op R p.1 h0 h1 (by simpa [sinstrumentRead] using hla)
      (by simpa [sinstrumentRead] using hble)
      (by simpa [sinstrument, sinstrumentRead] using hsr) IH1.symm
      (by rw [hc, hcol2.2])]
    rw [hcol2.1] at IH2 ⊢
    exact IH2
  | case10 p an bn h0 h1 a hla hble bi hsr hrec IH =>
    rw [smerge0_err_panic _ _ p h0 h1 hla hble hsr hrec]
    rw [hrec] at IH
    simp at IH
    rw [smerge0_err_panic op R p.1 h0 h1 (by simpa [sinstrumentRead] using hla)
      (by simpa [sinstrumentRead] using hble)
      (by simpa [sinstrument, sinstrumentRead] using hsr) IH.symm]
    simp
  | case11 p an bn h0 h1 a hla hble bi hsr p1 hrec IH =>
    rw [smerge0_err_abort1 _ _ p h0 h1 hla hble hsr hrec]
    rw [hrec] at IH
    simp at IH
    rw [smerge0_err_abort1 op R p.1 h0 h1 (by simpa [sinstrumentRead] using hla)
      (by simpa [sinstrumentRead] using hble)
      (by simpa [sinstrument, sinstrumentRead] using hsr) IH.symm]
    simp
  | case12 p an bn h0 h1 a hla hble bi hsr p1 u hrec p2 hcol IH =>
    rcases hc : op.from_a p1.1 1 with ⟨c1, c2⟩
    have hcol2 : p2 = (c1, p1.2 ++ [SEvent.fromA p1.1 1]) ∧ c2 = none := by
      have h := hcol
      simp [sinstrument, hc] at h
      exact ⟨h.1.symm, h.2⟩
    rw [smerge0_err_abort2 _ _ p h0 h1 hla hble hsr hrec hcol]
    rw [hrec] at IH
    simp at IH
    rw [smerge0_err_abort2 op R p.1 h0 h1 (by simpa [sinstrumentRead] using hla)
      (by simpa [sinstrumentRead] using hble)
      (by simpa [sinstrument, sinstrumentRead] using hsr) IH.symm
      (by rw [hc, hcol2.2])]
    rw [hcol2.1]
    rfl
  | case13 p an bn h0 h1 a hla hble bi hsr p1 u hrec p2 u2 hcol IH1 IH2 =>
    rcases hc : op.from_a p1.1 1 with ⟨c1, c2⟩
    have hcol2 : p2 = (c1, p1.2 ++ [SEvent.fromA p1.1 1]) ∧ c2 = some u2 := by
      have h := hcol
      simp [sinstrument, hc] at h
      exact ⟨h.1.symm, h.2⟩
    rw [smerge0_err_cont _ _ p h0 h1 hla hble hsr hrec hcol]
    rw [hrec] at IH1
    simp at IH1
    rw [smerge0_err_cont op R p.1 h0 h1 (by simpa [sinstrumentRead] using hla)
      (by simpa [sinstrumentRead] using hble)
      (by simpa [sinstrument, sinstrumentRead] using hsr) IH1.symm
      (by rw [hc, hcol2.2])]
    rw [hcol2.1] at IH2 ⊢
    exact IH2
  | case14 p an bn h0 h1 a hla hble =>
    rw [smerge0_panic_b _ _ p h0 h1 hla hble,
      smerge0_panic_b op R p.1 h0 h1 (by simpa [sinstrumentRead] using hla)
        (by simpa [sinstrumentRead] using hble)]
    simp

/-- A completed instrumented shortcut run returns the abort signal exactly when
one of the callback invocations it logged returned the abort signal. -/
theorem smerge0_sinstr_abort (op : ShortcutMergeOperation σ α β) (R : MergeStateRead σ α β) :
    ∀ (p : σ × List (SEvent σ)) an bn p' s,
      (sinstrument op).merge0 (sinstrumentRead R) p an bn = some (p', s) →
      ∃ T, p'.2 = p.2 ++ T ∧ (s = none ↔ ∃ e ∈ T, SEventAborts op e) := by
  intro p an bn
  induction p, an, bn
    using ShortcutMergeOperation.merge0.induct (sinstrument op) (sinstrumentRead R) with
  | case1 p bn hbn =>
    intro p' s h
    rw [smerge0_nil_pos _ _ p hbn] at h
    rcases hb : op.from_b p.1 bn with ⟨b1, b2⟩
    have h2 : (b1, p.2 ++ [SEvent.fromB p.1 bn]) = p' ∧ b2 = s := by
      have h3 := Option.some.inj h
      simp [sinstrument, hb] at h3
      exact h3
    refine ⟨[SEvent.fromB p.1 bn], by rw [← h2.1], ?_⟩
    rw [← h2.2]
    constructor
    · intro hb2
      exact ⟨SEvent.fromB p.1 bn, by simp, by simp [SEventAborts, hb, hb2]⟩
    · rintro ⟨e, he, habort⟩
      simp at he
      subst he
      simpa [SEventAborts, hb] using habort
  | case2 p bn hbn =>
    intro p' s h
    have hbn0 : bn = 0 := by omega
    subst hbn0
    rw [smerge0_nil_nil] at h
    have h2 := Option.some.inj h
    simp at h2
    refine ⟨[], by rw [← h2.1]; simp, ?_⟩
    rw [← h2.2]
    simp
  | case3 p an h0 han =>
    intro p' s h
    rw [smerge0_pos_nil _ _ p han] at h
    rcases hb : op.from_a p.1 an with ⟨b1, b2⟩
    have h2 : (b1, p.2 ++ [SEvent.fromA p.1 an]) = p' ∧ b2 = s := by
      have h3 := Option.some.inj h
      simp [sinstrument, hb] at h3
      exact h3
    refine ⟨[SEvent.fromA p.1 an], by rw [← h2.1], ?_⟩
    rw [← h2.2]
    constructor
    · intro hb2
      exact ⟨SEvent.fromA p.1 an, by simp, by simp [SEventAborts, hb, hb2]⟩
    · rintro ⟨e, he, habort⟩
      simp at he
      subst he
      simpa [SEventAborts, hb] using habort
  | case4 p an h0 han =>
    omega
  | case5 p an bn h0 h1 hla =>
    intro p' s h
    rw [smerge0_panic_a _ _ p h0 h1 hla] at h
    simp at h
  | case6 p an bn h0 h1 a hla hble bm hsr hrec IH =>
    intro p' s h
    rw [smerge0_ok_panic _ _ p h0 h1 hla hble hsr hrec] at h
    simp at h
  | case7 p an bn h0 h1 a hla hble bm hsr p1 hrec IH =>
    intro p' s h
    rw [smerge0_ok_abort1 _ _ p h0 h1 hla hble hsr hrec] at h
    have h2 := Option.some.inj h
    rw [Prod.mk.injEq] at h2
    obtain ⟨T1, hT1, hiff⟩ := IH p1 none hrec
    refine ⟨T1, ?_, ?_⟩
    · rw [← h2.1]
      exact hT1
    · rw [← h2.2]
      constructor
      · intro _
        exact hiff.mp rfl
      · intro _
        rfl
  | case8 p an bn h0 h1 a hla hble bm hsr p1 u hrec p2 hcol IH =>
    intro p' s h
    rcases hc : op.collision p1.1 with ⟨c1, c2⟩
    have hcol2 : p2 = (c1, p1.2 ++ [SEvent.coll p1.1]) ∧ c2 = none := by
      have h3 := hcol
      simp [sinstrument, hc] at h3
      exact ⟨h3.1.symm, h3.2⟩
    rw [smerge0_ok_abort2 _ _ p h0 h1 hla hble hsr hrec hcol] at h
    have h2 := Option.some.inj h
    rw [Prod.mk.injEq] at h2
    obtain ⟨T1, hT1, hiff⟩ := IH p1 (some u) hrec
    refine ⟨T1 ++ [SEvent.coll p1.1], ?_, ?_⟩
    · rw [← h2.1, hcol2.1]
      dsimp only
      rw [hT1, List.append_assoc]
    · rw [← h2.2]
      constructor
      · intro _
        exact ⟨SEvent.coll p1.1, by simp, by simp [SEventAborts, hc, hcol2.2]⟩
      · intro _
        rfl
  | case9 p an bn h0 h1 a hla hble bm hsr p1 u hrec p2 u2 hcol IH1 IH2 =>
    intro p' s h
    rcases hc : op.collision p1.1 with ⟨c1, c2⟩
    have hcol2 : p2 = (c1, p1.2 ++ [SEvent.coll p1.1]) ∧ c2 = some u2 := by
      have h3 := hcol
      simp [sinstrument, hc] at h3
      exact ⟨h3.1.symm, h3.2⟩
    rw [smerge0_ok_cont _ _ p h0 h1 hla hble hsr hrec hcol] at h
    obtain ⟨T1, hT1, hiff1⟩ := IH1 p1 (some u) hrec
    have hno1 : ¬ ∃ e ∈ T1, SEventAborts op e := fun hex => by
      have := hiff1.mpr hex
      simp at this
    obtain ⟨T2, hT2, hiff2⟩ := IH2 p' s h
    rw [hcol2.1] at hT2
    dsimp only at hT2
    refine ⟨T1 ++ SEvent.coll p1.1 :: T2, ?_, ?_⟩
    · rw [hT2, hT1]
      simp
    · constructor
      · intro hs
        obtain ⟨e, he, ha⟩ := hiff2.mp hs
        exact ⟨e, List.mem_append.mpr (Or.inr (List.mem_cons.mpr (Or.inr he))), ha⟩
      · rintro ⟨e, he, ha⟩
        rcases List.mem_append.mp he with h1' | h1'
        · exact absurd ⟨e, h1', ha⟩ hno1
        · rcases List.mem_cons.mp h1' with rfl | h2'
          · simp [SEventAborts, hc, hcol2.2] at ha
          · exact hiff2.mpr ⟨e, h2', ha⟩
  | case10 p an bn h0 h1 a hla hble bi hsr hrec IH =>
    intro p' s h
    rw [smerge0_err_panic _ _ p h0 h1 hla hble hsr hrec] at h
    simp at h
  | case11 p an bn h0 h1 a hla hble bi hsr p1 hrec IH =>
    intro p' s h
    rw [smerge0_err_abort1 _ _ p h0 h1 hla hble hsr hrec] at h
    have h2 := Option.some.inj h
    rw [Prod.mk.injEq] at h2
    obtain ⟨T1, hT1, hiff⟩ := IH p1 none hrec
    refine ⟨T1, ?_, ?_⟩
    · rw [← h2.1]
      exact hT1
    · rw [← h2.2]
      constructor
      · intro _
        exact hiff.mp rfl
      · intro _
        rfl
  | case12 p an bn h0 h1 a hla hble bi hsr p1 u hrec p2 hcol IH =>
    intro p' s h
    rcases hc : op.from_a p1.1 1 with ⟨c1, c2⟩
    have hcol2 : p2 = (c1, p1.2 ++ [SEvent.fromA p1.1 1]) ∧ c2 = none := by
      have h3 := hcol
      simp [sinstrument, hc] at h3
      exact ⟨h3.1.symm, h3.2⟩
    rw [smerge0_err_abort2 _ _ p h0 h1 hla hble hsr hrec hcol] at h
    have h2 := Option.some.inj h
    rw [Prod.mk.injEq] at h2
    obtain ⟨T1, hT1, hiff⟩ := IH p1 (some u) hrec
    refine ⟨T1 ++ [SEvent.fromA p1.1 1], ?_, ?_⟩
    · rw [← h2.1, hcol2.1]
      dsimp only
      rw [hT1, List.append_assoc]
    · rw [← h2.2]
      constructor
      · intro _
        exact ⟨SEvent.fromA p1.1 1, by simp, by simp [SEventAborts, hc, hcol2.2]⟩
      · intro _
        rfl
  | case13 p an bn h0 h1 a hla hble bi hsr p1 u hrec p2 u2 hcol IH1 IH2 =>
    intro p' s h
    rcases hc : op.from_a p1.1 1 with ⟨c1, c2⟩
    have hcol2 : p2 = (c1, p1.2 ++ [SEvent.fromA p1.1 1]) ∧ c2 = some u2 := by
      have h3 := hcol
      simp [sinstrument, hc] at h3
      exact ⟨h3.1.symm, h3.2⟩
    rw [smerge0_err_cont _ _ p h0 h1 hla hble hsr hrec hcol] at h
    obtain ⟨T1, hT1, hiff1⟩ := IH1 p1 (some u) hrec
    have hno1 : ¬ ∃ e ∈ T1, SEventAborts op e := fun hex => by
      have := hiff1.mpr hex
      simp at this
    obtain ⟨T2, hT2, hiff2⟩ := IH2 p' s h
    rw [hcol2.1] at hT2
    dsimp only at hT2
    refine ⟨T1 ++ SEvent.fromA p1.1 1 :: T2, ?_, ?_⟩
    · rw [hT2, hT1]
      simp
    · constructor
      · intro hs
        obtain ⟨e, he, ha⟩ := hiff2.mp hs
        exact ⟨e, List.mem_append.mpr (Or.inr (List.mem_cons.mpr (Or.inr he))), ha⟩
      · rintro ⟨e, he, ha⟩
        rcases List.mem_append.mp he with h1' | h1'
        · exact absurd ⟨e, h1', ha⟩ hno1
        · rcases List.mem_cons.mp h1' with rfl | h2'
          · simp [SEventAborts, hc, hcol2.2] at ha
          · exact hiff2.mpr ⟨e, h2', ha⟩
  | case14 p an bn h0 h1 a hla hble =>
    intro p' s h
    rw [smerge0_panic_b _ _ p h0 h1 hla hble] at h
    simp at h

/-- C10: `ShortcutMergeOperation::merge0` returns the abort signal if and only
if some callback invocation made during that very run returned the abort
signal, and whenever every invoked callback continues, it returns `some ()` —
the engine never originates an abort on its own. Stated over the ghost
instrumentation `sinstrument op`, which performs in lockstep the same state
change and returns the same signal as `op` (first conjunct) while logging each
callback invocation of the run together with the state and argument it was
invoked at: on any completed run with event log `evs0 ++ T`, the run aborts
iff some logged invocation in `T` aborted, and if every logged invocation
continued the run returns `some ()`. -/
theorem C10_abort_during_run (σ α β : Type) (op : ShortcutMergeOperation σ α β)
    (R : MergeStateRead σ α β) (m : σ) (evs0 : List (SEvent σ)) (an bn : Nat) :
    (((sinstrument op).merge0 (sinstrumentRead R) (m, evs0) an bn).map
        (fun r => (r.1.1, r.2)) = op.merge0 R m an bn)
    ∧ (∀ p' s,
        (sinstrument op).merge0 (sinstrumentRead R) (m, evs0) an bn = some (p', s) →
        ∃ T, p'.2 = evs0 ++ T
          ∧ (s = none ↔ ∃ e ∈ T, SEventAborts op e)
          ∧ ((∀ e ∈ T, ¬ SEventAborts op e) → s = some ())) := by
  constructor
  · exact smerge0_sinstr_proj op R (m, evs0) an bn
  · intro p' s h
    obtain ⟨T, hT, hiff⟩ := smerge0_sinstr_abort op R (m, evs0) an bn p' s h
    refine ⟨T, hT, hiff, ?_⟩
    intro hall
    rcases s with _ | u
    · obtain ⟨e, he, ha⟩ := hiff.mp rfl
      exact absurd ha (hall e he)
    · rfl

/-- C10 witness: running the instrumented shortcut union over `A = [1]` empty
on the a-side (`an = 0`) against `B = [2, 3]` logs exactly one `from_b`
invocation; since that invocation continued, the run returns `some ()` even
though the operation's `collision` callback is abort-capable — it was simply
never invoked during this run. -/
theorem C10_abort_during_run_witness :
    ∃ T, (((sUnionOp.from_b ⟨[1], [2, 3], [], []⟩ 2).1,
            [SEvent.fromB (⟨[1], [2, 3], [], []⟩ : UState) 2]) :
            UState × List (SEvent UState)).2 = [] ++ T
      ∧ ((some () : EarlyOut) = none ↔ ∃ e ∈ T, SEventAborts sUnionOp e)
      ∧ ((∀ e ∈ T, ¬ SEventAborts sUnionOp e) → (some () : EarlyOut) = some ()) := by
  have h : (sinstrument sUnionOp).merge0 (sinstrumentRead uRead)
      ((⟨[1], [2, 3], [], []⟩ : UState), ([] : List (SEvent UState))) 0 2
      = some (((sUnionOp.from_b ⟨[1], [2, 3], [], []⟩ 2).1,
          [SEvent.fromB (⟨[1], [2, 3], [], []⟩ : UState) 2]), some ()) := by
    rw [smerge0_nil_pos (sinstrument sUnionOp) (sinstrumentRead uRead) _ (by decide)]
    rfl
  exact (C10_abort_during_run UState Nat Nat sUnionOp uRead
    ⟨[1], [2, 3], [], []⟩ [] 0 2).2 _ _ h
